import Mathlib

/-!
# Verification of `redblacktrees.py` (left-leaning red-black tree)

Shallow embedding of `src/redblacktrees.py`. The Python class
`RedBlackTree[T]` is a node (value, colour, optional left/right child);
`Optional[RedBlackTree]` is modelled by an inductive tree with a `nil`
constructor standing for Python `None`. Values are specialised to `Int`
(the code only compares them with `<`, `>`, `==`).

Every mutating Python method rewrites nodes in place and returns the new
subtree root, which the caller reattaches; this ownership-returning
recursion is modelled by pure functions returning the new subtree.
`raise RuntimeError(...)` is modelled by `Except RBError`.
-/

/-- The colour of a node in a red-black tree (class `Colour` in the source). -/
inductive Colour where
  | Red : Colour
  | Black : Colour
deriving DecidableEq, Repr

/-- Toggling `Colour.Red if c == Colour.Black else Colour.Black`, the
expression `_flip_colours` applies to a colour field. -/
def Colour.toggle : Colour → Colour
  | .Red => .Black
  | .Black => .Red

/-- A red-black tree. `nil` models Python `None` (an absent subtree);
`node` models an instance of the Python class `RedBlackTree` with fields
`value`, `colour`, `left`, `right`. -/
inductive RedBlackTree where
  | nil : RedBlackTree
  | node (value : Int) (colour : Colour) (left right : RedBlackTree) : RedBlackTree
deriving DecidableEq, Repr

/-- Errors raised by the source with `raise RuntimeError(...)`:
`duplicateKey` from `_insert_rec` ("Duplicate key insertion is not allowed"),
`onlyNode` from `delete` ("Cannot delete the only node in the tree"),
`becameEmpty` from `delete` ("Tree became empty after delete"). -/
inductive RBError where
  | duplicateKey : RBError
  | onlyNode : RBError
  | becameEmpty : RBError
deriving DecidableEq, Repr

namespace RedBlackTree

/-- Field access `self.value`; unreachable on `None` in the source, `0` here. -/
def value : RedBlackTree → Int
  | .nil => 0
  | .node v _ _ _ => v

/-- Field access `self.colour`; unreachable on `None` in the source. -/
def colour : RedBlackTree → Colour
  | .nil => Colour.Black
  | .node _ c _ _ => c

/-- Field access `self.left`; unreachable on `None` in the source. -/
def left : RedBlackTree → RedBlackTree
  | .nil => .nil
  | .node _ _ l _ => l

/-- Field access `self.right`; unreachable on `None` in the source. -/
def right : RedBlackTree → RedBlackTree
  | .nil => .nil
  | .node _ _ _ r => r

/-- Assignment `self.left = l` on a node. -/
def setLeft : RedBlackTree → RedBlackTree → RedBlackTree
  | .nil, _ => .nil
  | .node v c _ r, l => .node v c l r

/-- Assignment `self.right = r` on a node. -/
def setRight : RedBlackTree → RedBlackTree → RedBlackTree
  | .nil, _ => .nil
  | .node v c l _, r => .node v c l r

/-- Assignment `self.value = x` on a node. -/
def setValue : RedBlackTree → Int → RedBlackTree
  | .nil, _ => .nil
  | .node _ c l r, x => .node x c l r

/-- `RedBlackTree._is_red`: a node is red iff it is not `None` and its
colour is `Red`. -/
def is_red : RedBlackTree → Bool
  | .node _ .Red _ _ => true
  | _ => false

/-- `RedBlackTree._rotate_left`. The source asserts `self.right is not None`;
every call site guards this, so the `nil`-right case (returning the tree
unchanged) is unreachable. -/
def rotate_left : RedBlackTree → RedBlackTree
  | .node v c l (.node rv _rc rl rr) => .node rv c (.node v .Red l rl) rr
  | t => t

/-- `RedBlackTree._rotate_right`. The source asserts `self.left is not None`;
every call site guards this, so the `nil`-left case is unreachable. -/
def rotate_right : RedBlackTree → RedBlackTree
  | .node v c (.node lv _lc ll lr) r => .node lv c ll (.node v .Red lr r)
  | t => t

/-- Toggling only the root colour of a child, as `_flip_colours` does to
`self.left` / `self.right` when present. -/
def toggleRoot : RedBlackTree → RedBlackTree
  | .nil => .nil
  | .node v c l r => .node v c.toggle l r

/-- `RedBlackTree._flip_colours`: toggle the node's colour and the colour of
each present child. -/
def flip_colours : RedBlackTree → RedBlackTree
  | .nil => .nil
  | .node v c l r => .node v c.toggle (toggleRoot l) (toggleRoot r)

/-- `RedBlackTree._fix_up`: rotate left if the right child is red and the
left is not; then rotate right if the left child and its left child are both
red; then flip colours if both children are red. -/
def fix_up (t : RedBlackTree) : RedBlackTree :=
  let t := if t.right.is_red && !t.left.is_red then t.rotate_left else t
  let t := if t.left.is_red && t.left.left.is_red then t.rotate_right else t
  if t.left.is_red && t.right.is_red then t.flip_colours else t

/-- `RedBlackTree._move_red_left`: flip colours; if `self.right` is present
and `self.right.left` is red (`u.right.left.is_red` already implies the
right child is present), rotate the right child right, rotate the node left,
and flip colours again. -/
def move_red_left (t : RedBlackTree) : RedBlackTree :=
  let u := t.flip_colours
  if u.right.left.is_red then
    ((u.setRight u.right.rotate_right).rotate_left).flip_colours
  else u

/-- `RedBlackTree._move_red_right`: flip colours; if `self.left` is present
and `self.left.left` is red, rotate the node right and flip colours again. -/
def move_red_right (t : RedBlackTree) : RedBlackTree :=
  let u := t.flip_colours
  if u.left.left.is_red then
    (u.rotate_right).flip_colours
  else u

/-- `RedBlackTree._min_node`: walk left while a left child exists. Called on
a node in the source, never on `None`. -/
def min_node : RedBlackTree → RedBlackTree
  | .nil => .nil
  | .node v c .nil r => .node v c .nil r
  | .node _ _ (.node lv lc ll lr) _ => (RedBlackTree.node lv lc ll lr).min_node

/-- Number of nodes. Used as the termination measure for the deletion
recursions: the source recurses into `self.left` after `_move_red_left` may
have restructured the tree, so the recursion is not structural, but the
restructuring steps all preserve the node count. -/
def size : RedBlackTree → Nat
  | .nil => 0
  | .node _ _ l r => 1 + l.size + r.size

theorem size_toggleRoot (t : RedBlackTree) : t.toggleRoot.size = t.size := by
  cases t <;> simp [toggleRoot, size]

theorem size_flip_colours (t : RedBlackTree) : t.flip_colours.size = t.size := by
  cases t <;> simp [flip_colours, size, size_toggleRoot]

theorem size_rotate_left (t : RedBlackTree) : t.rotate_left.size = t.size := by
  cases t with
  | nil => rfl
  | node v c l r =>
    cases r with
    | nil => rfl
    | node rv rc rl rr =>
      simp only [rotate_left, size]
      omega

theorem size_rotate_right (t : RedBlackTree) : t.rotate_right.size = t.size := by
  cases t with
  | nil => rfl
  | node v c l r =>
    cases l with
    | nil => rfl
    | node lv lc ll lr =>
      simp only [rotate_right, size]
      omega

theorem size_setRight_right (t : RedBlackTree) (r : RedBlackTree)
    (h : r.size = t.right.size) : (t.setRight r).size = t.size := by
  cases t <;> simp_all [setRight, size, right]

theorem size_move_red_left (t : RedBlackTree) : t.move_red_left.size = t.size := by
  by_cases h : t.flip_colours.right.left.is_red = true <;>
    simp [move_red_left, h, size_flip_colours, size_rotate_left, size_rotate_right,
      size_setRight_right]

theorem size_move_red_right (t : RedBlackTree) : t.move_red_right.size = t.size := by
  by_cases h : t.flip_colours.left.left.is_red = true <;>
    simp [move_red_right, h, size_flip_colours, size_rotate_right]

theorem left_size_lt {t : RedBlackTree} (h : t ≠ .nil) : t.left.size < t.size := by
  cases t with
  | nil => exact absurd rfl h
  | node v c l r =>
    simp only [left, size]
    omega

theorem right_size_lt {t : RedBlackTree} (h : t ≠ .nil) : t.right.size < t.size := by
  cases t with
  | nil => exact absurd rfl h
  | node v c l r =>
    simp only [right, size]
    omega

theorem flip_colours_ne_nil {t : RedBlackTree} (h : t ≠ .nil) :
    t.flip_colours ≠ .nil := by
  cases t with
  | nil => exact absurd rfl h
  | node v c l r => simp [flip_colours]

theorem rotate_left_ne_nil {t : RedBlackTree} (h : t ≠ .nil) :
    t.rotate_left ≠ .nil := by
  cases t with
  | nil => exact absurd rfl h
  | node v c l r => cases r <;> simp [rotate_left]

theorem rotate_right_ne_nil {t : RedBlackTree} (h : t ≠ .nil) :
    t.rotate_right ≠ .nil := by
  cases t with
  | nil => exact absurd rfl h
  | node v c l r => cases l <;> simp [rotate_right]

theorem setRight_ne_nil {t r : RedBlackTree} (h : t ≠ .nil) :
    t.setRight r ≠ .nil := by
  cases t with
  | nil => exact absurd rfl h
  | node v c l r0 => simp [setRight]

theorem move_red_left_ne_nil {t : RedBlackTree} (h : t ≠ .nil) :
    t.move_red_left ≠ .nil := by
  by_cases hc : t.flip_colours.right.left.is_red = true
  · simp only [move_red_left, hc, if_true]
    exact flip_colours_ne_nil (rotate_left_ne_nil (setRight_ne_nil (flip_colours_ne_nil h)))
  · simp only [move_red_left, hc, if_false]
    exact flip_colours_ne_nil h

theorem move_red_right_ne_nil {t : RedBlackTree} (h : t ≠ .nil) :
    t.move_red_right ≠ .nil := by
  by_cases hc : t.flip_colours.left.left.is_red = true
  · simp only [move_red_right, hc, if_true]
    exact flip_colours_ne_nil (rotate_right_ne_nil (flip_colours_ne_nil h))
  · simp only [move_red_right, hc, if_false]
    exact flip_colours_ne_nil h

/-- `RedBlackTree._delete_min`: if the left child is absent, drop this node
(return `None`); otherwise push a red link left when needed, recurse into
the left child, reattach the result and fix up. The source asserts the left
child is still present after `_move_red_left`. -/
def delete_min (t : RedBlackTree) : RedBlackTree :=
  match t with
  | .nil => .nil
  | .node v c l r =>
    if l = .nil then .nil
    else
      let t0 := RedBlackTree.node v c l r
      let t1 := if !t0.left.is_red && !t0.left.left.is_red then t0.move_red_left else t0
      (t1.setLeft t1.left.delete_min).fix_up
termination_by t.size
decreasing_by
  have hnn : t0 ≠ .nil := by simp [t0]
  have h1 : t1.left.size < t0.size := by
    simp only [t1]
    split
    · have h2 := left_size_lt (move_red_left_ne_nil hnn)
      rwa [size_move_red_left] at h2
    · exact left_size_lt hnn
  exact h1

/-- `RedBlackTree._delete_rec`. Follows the source line by line:
if `x < self.value`: return `self` when the left child is absent (not
found), else conditionally `_move_red_left`, recurse left, fix up.
Otherwise: rotate right if the left child is red; return `None` if `x`
equals the (possibly new) value and the right child is absent; return
`self` when the right child is absent (not found); conditionally
`_move_red_right`; if `x` equals the value, overwrite it with the right
subtree's minimum and delete that minimum from the right subtree, else
recurse right; fix up. -/
def delete_rec (t : RedBlackTree) (x : Int) : RedBlackTree :=
  match t with
  | .nil => .nil
  | .node v c l r =>
    let t0 := RedBlackTree.node v c l r
    if x < v then
      if l = .nil then t0
      else
        let t1 := if !t0.left.is_red && !t0.left.left.is_red then t0.move_red_left else t0
        (t1.setLeft (t1.left.delete_rec x)).fix_up
    else
      let t1 := if t0.left.is_red then t0.rotate_right else t0
      if x = t1.value && t1.right = .nil then .nil
      else if t1.right = .nil then t1
      else
        let t2 := if !t1.right.is_red && !t1.right.left.is_red then t1.move_red_right else t1
        if x = t2.value then
          ((t2.setValue t2.right.min_node.value).setRight t2.right.delete_min).fix_up
        else
          (t2.setRight (t2.right.delete_rec x)).fix_up
termination_by t.size
decreasing_by
  · have hnn : t0 ≠ .nil := by simp [t0]
    have h1 : t1.left.size < t0.size := by
      simp only [t1]
      split
      · have h2 := left_size_lt (move_red_left_ne_nil hnn)
        rwa [size_move_red_left] at h2
      · exact left_size_lt hnn
    exact h1
  · have hnn : t0 ≠ .nil := by simp [t0]
    have hs1 : t1.size = t0.size := by
      simp only [t1]
      split
      · rw [size_rotate_right]
      · rfl
    have hn1 : t1 ≠ .nil := by
      simp only [t1]
      split
      · exact rotate_right_ne_nil hnn
      · exact hnn
    have h2 : t2.right.size < t0.size := by
      simp only [t2]
      split
      · have h3 := right_size_lt (move_red_right_ne_nil hn1)
        rw [size_move_red_right, hs1] at h3
        exact h3
      · have h3 := right_size_lt hn1
        rw [hs1] at h3
        exact h3
    exact h2

/-- `RedBlackTree._insert_rec`: BST descent creating a red node in an
absent child slot, raising on an equal value, fixing up on the way back.
(The `nil` case is unreachable in the source — methods are never called on
`None`; it is given the natural reading: create the red node.) -/
def insert_rec : RedBlackTree → Int → Except RBError RedBlackTree
  | .nil, x => .ok (.node x .Red .nil .nil)
  | .node v c l r, x =>
    if x < v then
      if l = .nil then .ok (RedBlackTree.node v c (.node x .Red .nil .nil) r).fix_up
      else do
        let lres ← l.insert_rec x
        pure (RedBlackTree.node v c lres r).fix_up
    else if v < x then
      if r = .nil then .ok (RedBlackTree.node v c l (.node x .Red .nil .nil)).fix_up
      else do
        let rres ← r.insert_rec x
        pure (RedBlackTree.node v c l rres).fix_up
    else .error .duplicateKey

/-- Recolouring the root black, the tail `self.colour = Colour.Black` of
both `insert` and `delete`. -/
def paint_black : RedBlackTree → RedBlackTree
  | .nil => .nil
  | .node v _ l r => .node v .Black l r

/-- `RedBlackTree.insert`: run `_insert_rec`, adopt the returned root (the
source copies its fields into `self` so external references stay valid), and
recolour the root black. On an error the tree the caller holds is unchanged:
the source raises before any field assignment on the path from the duplicate
back to the root, so no mutation has happened. -/
def insert (t : RedBlackTree) (x : Int) : Except RBError RedBlackTree :=
  match t.insert_rec x with
  | .error e => .error e
  | .ok u => .ok u.paint_black

/-- `RedBlackTree.delete`: raise when asked to delete the only node; run
`_delete_rec`; raise if the tree became empty; otherwise adopt the returned
root and recolour it black. -/
def delete (t : RedBlackTree) (x : Int) : Except RBError RedBlackTree :=
  if t.left = .nil && t.right = .nil && t.value = x then .error .onlyNode
  else
    match t.delete_rec x with
    | .nil => .error .becameEmpty
    | .node v c l r => .ok (RedBlackTree.node v c l r).paint_black

/-- `RedBlackTree.contains`: iterative BST descent in the source, the same
descent written recursively. -/
def contains : RedBlackTree → Int → Bool
  | .nil, _ => false
  | .node v _ l r, x =>
    if x < v then l.contains x
    else if v < x then r.contains x
    else true

/-- `RedBlackTree.fromList`: `None` for the empty list; otherwise the first
element becomes a black root and the rest are inserted in order (an
insertion error aborts the construction). -/
def fromList : List Int → Except RBError (Option RedBlackTree)
  | [] => .ok none
  | x :: xs => do
      let t ← xs.foldlM insert (RedBlackTree.node x .Black .nil .nil)
      pure (some t)

/-- The inner `go` of `RedBlackTree.is_bst`: every value lies strictly
between the inherited open bounds (`None` = unbounded). -/
def is_bst_go : RedBlackTree → Option Int → Option Int → Bool
  | .nil, _, _ => true
  | .node v _ l r, lo, hi =>
    (match lo with | none => true | some a => decide (a < v)) &&
    (match hi with | none => true | some b => decide (v < b)) &&
    is_bst_go l lo (some v) && is_bst_go r (some v) hi

/-- `RedBlackTree.is_bst`: valid binary search tree. -/
def is_bst (t : RedBlackTree) : Bool := is_bst_go t none none

/-- The inner `no_red_red` of `is_rbt`: no red node has a red child. -/
def no_red_red : RedBlackTree → Bool
  | .nil => true
  | .node _ c l r =>
    (if c = Colour.Red then !(l.is_red || r.is_red) else true)
      && no_red_red l && no_red_red r

/-- The inner `black_height` of `is_rbt`: `None` leaves count as one black
level; `none` is the failure sentinel when the children disagree. -/
def black_height : RedBlackTree → Option Nat
  | .nil => some 1
  | .node _ c l r =>
    match black_height l, black_height r with
    | some lh, some rh =>
        if lh = rh then some (lh + (if c = Colour.Black then 1 else 0)) else none
    | _, _ => none

/-- `RedBlackTree.is_rbt`: the root is black, `is_bst` holds, no red node
has a red child, and the black height is consistent. -/
def is_rbt (t : RedBlackTree) : Bool :=
  t.colour = Colour.Black && t.is_bst && t.no_red_red && (t.black_height).isSome

/-!
## Proof layer

Definitions below are not in the source; they are the measures and
predicates the claims and the proofs speak about.
-/

/-- Inorder traversal. Rotations and recolourings preserve it, which is the
backbone of the functional-correctness proofs. -/
def toList : RedBlackTree → List Int
  | .nil => []
  | .node v _ l r => toList l ++ v :: toList r

/-- Height in nodes: the number of nodes on a longest root-to-leaf path. -/
def height : RedBlackTree → Nat
  | .nil => 0
  | .node _ _ l r => 1 + max l.height r.height

/-- The left-leaning convention: no right child anywhere is red. Maintained
by the algorithms but not checked by `is_rbt`. -/
def left_leaning : RedBlackTree → Bool
  | .nil => true
  | .node _ _ l r => !r.is_red && left_leaning l && left_leaning r

/-- Structural validity of a left-leaning red-black subtree, indexed by the
root colour class (`nil` counts as black) and the black height measured as
the source's `black_height` does (`nil` has black height 1). A red node has
black-rooted children of the same black height; a black node may have a red
or black left child but only a black-rooted right child (the left-leaning
convention) of the same black height. -/
inductive LLRB : RedBlackTree → Colour → Nat → Prop where
  | nil : LLRB .nil .Black 1
  | red (v : Int) {l r : RedBlackTree} {n : Nat} :
      LLRB l .Black n → LLRB r .Black n → LLRB (.node v .Red l r) .Red n
  | black (v : Int) {l r : RedBlackTree} {cl : Colour} {n : Nat} :
      LLRB l cl n → LLRB r .Black n → LLRB (.node v .Black l r) .Black (n + 1)

/-- A red root whose left child is also red, but everything below is a
valid left-leaning red-black structure: the transient state that insertion
into a red subtree and top-level deletion can hand back, repaired by the
parent's `_fix_up` or by the final recolouring of the root. -/
def AlmostL (t : RedBlackTree) (n : Nat) : Prop :=
  ∃ v l r, t = RedBlackTree.node v .Red l r ∧ LLRB l .Red n ∧ LLRB r .Black n

/-- A black root whose right child is red but everything else is valid:
the transient state `_move_red_right` can create below itself, always
entered with the search key not less than the root value. -/
def RightRed (t : RedBlackTree) (n : Nat) : Prop :=
  ∃ v l r m, t = RedBlackTree.node v .Black l r ∧ LLRB l .Black m ∧
    LLRB r .Red m ∧ n = m + 1

/-- One public mutating operation of the class. -/
inductive Op where
  | ins (x : Int) : Op
  | del (x : Int) : Op
deriving DecidableEq, Repr

/-- Applying one public operation. -/
def applyOp (t : RedBlackTree) : Op → Except RBError RedBlackTree
  | .ins x => t.insert x
  | .del x => t.delete x

/-- Running a sequence of public operations; an operation that raises
aborts the run (the raising operation leaves the tree unchanged, so every
prefix of a successful run is itself a successful run). -/
def runOps (t : RedBlackTree) : List Op → Except RBError RedBlackTree
  | [] => .ok t
  | o :: os => do
      let u ← t.applyOp o
      u.runOps os

/-- The reference membership history: the values inserted and not
subsequently deleted, starting from an initial list of members. -/
def histList (s : List Int) : List Op → List Int
  | [] => s
  | .ins x :: os => histList (x :: s) os
  | .del x :: os => histList (s.filter (fun y => y ≠ x)) os


/-!
### Inorder traversal through the restructuring primitives

Every rotation and recolouring step of the source preserves the inorder
traversal of the subtree it is applied to.
-/

theorem toList_toggleRoot (t : RedBlackTree) : t.toggleRoot.toList = t.toList := by
  cases t <;> simp [toggleRoot, toList]

theorem toList_flip_colours (t : RedBlackTree) : t.flip_colours.toList = t.toList := by
  cases t <;> simp [flip_colours, toList, toList_toggleRoot]

theorem toList_rotate_left (t : RedBlackTree) : t.rotate_left.toList = t.toList := by
  cases t with
  | nil => rfl
  | node v c l r =>
    cases r with
    | nil => rfl
    | node rv rc rl rr => simp [rotate_left, toList]

theorem toList_rotate_right (t : RedBlackTree) : t.rotate_right.toList = t.toList := by
  cases t with
  | nil => rfl
  | node v c l r =>
    cases l with
    | nil => rfl
    | node lv lc ll lr => simp [rotate_right, toList]

theorem toList_paint_black (t : RedBlackTree) : t.paint_black.toList = t.toList := by
  cases t <;> simp [paint_black, toList]

theorem toList_ite_rotate_left {p : Prop} [Decidable p] (t : RedBlackTree) :
    (if p then t.rotate_left else t).toList = t.toList := by
  split
  · exact toList_rotate_left t
  · rfl

theorem toList_ite_rotate_right {p : Prop} [Decidable p] (t : RedBlackTree) :
    (if p then t.rotate_right else t).toList = t.toList := by
  split
  · exact toList_rotate_right t
  · rfl

theorem toList_ite_flip {p : Prop} [Decidable p] (t : RedBlackTree) :
    (if p then t.flip_colours else t).toList = t.toList := by
  split
  · exact toList_flip_colours t
  · rfl

theorem toList_fix_up (t : RedBlackTree) : t.fix_up.toList = t.toList := by
  simp only [fix_up, toList_ite_flip, toList_ite_rotate_right, toList_ite_rotate_left]

theorem toList_setRight_right (t : RedBlackTree) (r : RedBlackTree)
    (h : r.toList = t.right.toList) : (t.setRight r).toList = t.toList := by
  cases t <;> simp_all [setRight, toList, right]

theorem toList_move_red_left (t : RedBlackTree) :
    t.move_red_left.toList = t.toList := by
  by_cases h : t.flip_colours.right.left.is_red = true <;>
    simp [move_red_left, h, toList_flip_colours, toList_rotate_left,
      toList_rotate_right, toList_setRight_right]

theorem toList_move_red_right (t : RedBlackTree) :
    t.move_red_right.toList = t.toList := by
  by_cases h : t.flip_colours.left.left.is_red = true <;>
    simp [move_red_right, h, toList_flip_colours, toList_rotate_right]

theorem toList_eq_nil_iff (t : RedBlackTree) : t.toList = [] ↔ t = .nil := by
  cases t with
  | nil => simp [toList]
  | node v c l r => simp [toList]

theorem length_toList (t : RedBlackTree) : t.toList.length = t.size := by
  induction t with
  | nil => rfl
  | node v c l r ihl ihr => simp [toList, size, ihl, ihr]; omega

theorem fix_up_ne_nil {t : RedBlackTree} (h : t ≠ .nil) : t.fix_up ≠ .nil := by
  intro hc
  have h2 : t.fix_up.toList = [] := by rw [hc]; rfl
  rw [toList_fix_up, toList_eq_nil_iff] at h2
  exact h h2

theorem setLeft_ne_nil {t l : RedBlackTree} (h : t ≠ .nil) :
    t.setLeft l ≠ .nil := by
  cases t with
  | nil => exact absurd rfl h
  | node v c l0 r => simp [setLeft]

theorem setValue_ne_nil {t : RedBlackTree} {x : Int} (h : t ≠ .nil) :
    t.setValue x ≠ .nil := by
  cases t with
  | nil => exact absurd rfl h
  | node v c l0 r => simp [setValue]

/-- The value at the root is among the stored values. -/
theorem value_mem_toList {t : RedBlackTree} (h : t ≠ .nil) :
    t.value ∈ t.toList := by
  cases t with
  | nil => exact absurd rfl h
  | node v c l r => simp [value, toList]

/-- `_min_node` reaches the head of the inorder traversal. -/
theorem head_toList_min_node {t : RedBlackTree} (h : t ≠ .nil) :
    t.toList.head? = some t.min_node.value := by
  induction t with
  | nil => exact absurd rfl h
  | node v c l r ihl ihr =>
    cases l with
    | nil => simp [toList, min_node, value]
    | node lv lc ll lr =>
      have h2 := ihl (by simp)
      have hne : (RedBlackTree.node lv lc ll lr).toList ≠ [] := by
        rw [ne_eq, toList_eq_nil_iff]
        simp
      have h3 : (RedBlackTree.node v c (RedBlackTree.node lv lc ll lr) r).toList
          = (RedBlackTree.node lv lc ll lr).toList ++ v :: r.toList := rfl
      rw [h3, List.head?_append_of_ne_nil _ hne, h2]
      rfl


/-!
### `is_bst` as sortedness of the inorder traversal
-/

/-- The lower-bound test of `is_bst`'s inner `go`, as a proposition. -/
def lowOK (lo : Option Int) (y : Int) : Prop :=
  match lo with
  | none => True
  | some a => a < y

/-- The upper-bound test of `is_bst`'s inner `go`, as a proposition. -/
def highOK (hi : Option Int) (y : Int) : Prop :=
  match hi with
  | none => True
  | some b => y < b

theorem lowB_iff (lo : Option Int) (v : Int) :
    ((match lo with | none => true | some a => decide (a < v)) = true) ↔ lowOK lo v := by
  cases lo <;> simp [lowOK]

theorem highB_iff (hi : Option Int) (v : Int) :
    ((match hi with | none => true | some b => decide (v < b)) = true) ↔ highOK hi v := by
  cases hi <;> simp [highOK]

theorem is_bst_go_iff : ∀ (t : RedBlackTree) (lo hi : Option Int),
    is_bst_go t lo hi = true ↔
      (List.Pairwise (fun a b => a < b) t.toList ∧
        ∀ y ∈ t.toList, lowOK lo y ∧ highOK hi y) := by
  intro t
  induction t with
  | nil =>
    intro lo hi
    simp [is_bst_go, toList]
  | node v c l r ihl ihr =>
    intro lo hi
    rw [show (RedBlackTree.node v c l r).toList = l.toList ++ v :: r.toList from rfl]
    simp only [is_bst_go, Bool.and_eq_true, ihl, ihr, List.pairwise_append,
      List.pairwise_cons, List.mem_append, List.mem_cons, lowB_iff, highB_iff,
      and_assoc]
    constructor
    · rintro ⟨hlo, hhi, pl, bl, pr, br⟩
      have hlv : ∀ y ∈ l.toList, y < v := fun y hy => (bl y hy).2
      have hrv : ∀ y ∈ r.toList, v < y := fun y hy => (br y hy).1
      refine ⟨pl, hrv, pr, ?_, ?_⟩
      · intro a ha b hb
        rcases hb with hb | hb
        · subst hb
          exact hlv a ha
        · exact lt_trans (hlv a ha) (hrv b hb)
      · intro y hy
        rcases hy with hy | hy | hy
        · refine ⟨(bl y hy).1, ?_⟩
          cases hi with
          | none => trivial
          | some b =>
            exact lt_trans (hlv y hy) hhi
        · subst hy
          exact ⟨hlo, hhi⟩
        · refine ⟨?_, (br y hy).2⟩
          cases lo with
          | none => trivial
          | some a =>
            exact lt_trans hlo (hrv y hy)
    · rintro ⟨pl, hrv, pr, hcross, hb⟩
      have hbv := hb v (Or.inr (Or.inl rfl))
      refine ⟨hbv.1, hbv.2, pl, ?_, pr, ?_⟩
      · intro y hy
        exact ⟨(hb y (Or.inl hy)).1, hcross y hy v (Or.inl rfl)⟩
      · intro y hy
        exact ⟨hrv y hy, (hb y (Or.inr (Or.inr hy))).2⟩

/-- `is_bst` holds exactly when the inorder traversal is strictly sorted. -/
theorem is_bst_iff_pairwise (t : RedBlackTree) :
    t.is_bst = true ↔ List.Pairwise (fun a b => a < b) t.toList := by
  rw [is_bst, is_bst_go_iff]
  simp [lowOK, highOK]

/-- On a sorted tree, the path-following `contains` decides membership in
the stored values. -/
theorem contains_iff_mem : ∀ (t : RedBlackTree) (x : Int),
    List.Pairwise (fun a b => a < b) t.toList →
    (t.contains x = true ↔ x ∈ t.toList) := by
  intro t
  induction t with
  | nil =>
    intro x hs
    simp [contains, toList]
  | node v c l r ihl ihr =>
    intro x hs
    rw [show (RedBlackTree.node v c l r).toList = l.toList ++ v :: r.toList from rfl] at hs ⊢
    rw [List.pairwise_append] at hs
    obtain ⟨pl, pvr, hcross⟩ := hs
    rw [List.pairwise_cons] at pvr
    obtain ⟨hrv, pr⟩ := pvr
    simp only [contains]
    by_cases h1 : x < v
    · rw [if_pos h1, ihl x pl]
      simp only [List.mem_append, List.mem_cons]
      constructor
      · exact Or.inl
      · rintro (h | h | h)
        · exact h
        · omega
        · have := hrv x h
          omega
    · rw [if_neg h1]
      by_cases h2 : v < x
      · rw [if_pos h2, ihr x pr]
        simp only [List.mem_append, List.mem_cons]
        constructor
        · exact fun h => Or.inr (Or.inr h)
        · rintro (h | h | h)
          · have := hcross x h v (List.mem_cons_self v r.toList)
            omega
          · omega
          · exact h
      · rw [if_neg h2]
        have hxv : x = v := by omega
        subst hxv
        simp


/-!
### Insertion: error behaviour, membership, BST preservation
-/

/-- Trees with the same inorder traversal satisfy the same bound checks. -/
theorem is_bst_go_congr {u t : RedBlackTree} (h : u.toList = t.toList)
    (lo hi : Option Int) :
    (u.is_bst_go lo hi = true) ↔ (t.is_bst_go lo hi = true) := by
  rw [is_bst_go_iff, is_bst_go_iff, h]

/-- `_insert_rec` raises only the duplicate-key error. -/
theorem insert_rec_error_eq : ∀ (t : RedBlackTree) (x : Int) (e : RBError),
    t.insert_rec x = .error e → e = .duplicateKey := by
  intro t
  induction t with
  | nil => intro x e h; simp [insert_rec] at h
  | node v c l r ihl ihr =>
    intro x e h
    simp only [insert_rec] at h
    by_cases h1 : x < v
    · rw [if_pos h1] at h
      cases l with
      | nil => simp at h
      | node lv lc ll lr =>
        simp only [bind, Except.bind] at h
        cases hrec : (RedBlackTree.node lv lc ll lr).insert_rec x with
        | error e2 =>
          rw [hrec] at h
          cases h
          exact ihl x e hrec
        | ok u => rw [hrec] at h; simp [pure, Except.pure] at h
    · rw [if_neg h1] at h
      by_cases h2 : v < x
      · rw [if_pos h2] at h
        cases r with
        | nil => simp at h
        | node rv rc rl rr =>
          simp only [bind, Except.bind] at h
          cases hrec : (RedBlackTree.node rv rc rl rr).insert_rec x with
          | error e2 =>
            rw [hrec] at h
            cases h
            exact ihr x e hrec
          | ok u => rw [hrec] at h; simp [pure, Except.pure] at h
      · rw [if_neg h2] at h
        cases h
        rfl

/-- `_insert_rec` raises exactly when the BST descent finds the key. -/
theorem insert_rec_error_iff_contains : ∀ (t : RedBlackTree) (x : Int),
    (t.insert_rec x = .error .duplicateKey) ↔ t.contains x = true := by
  intro t
  induction t with
  | nil => intro x; simp [insert_rec, contains]
  | node v c l r ihl ihr =>
    intro x
    simp only [insert_rec, contains]
    by_cases h1 : x < v
    · rw [if_pos h1, if_pos h1]
      cases l with
      | nil => simp [contains]
      | node lv lc ll lr =>
        simp only [bind, Except.bind]
        cases hrec : (RedBlackTree.node lv lc ll lr).insert_rec x with
        | error e2 =>
          have he2 := insert_rec_error_eq _ _ _ hrec
          subst he2
          rw [← ihl x]
          simp [hrec]
        | ok u =>
          rw [← ihl x]
          simp [hrec, pure, Except.pure]
    · rw [if_neg h1, if_neg h1]
      by_cases h2 : v < x
      · rw [if_pos h2, if_pos h2]
        cases r with
        | nil => simp [contains]
        | node rv rc rl rr =>
          simp only [bind, Except.bind]
          cases hrec : (RedBlackTree.node rv rc rl rr).insert_rec x with
          | error e2 =>
            have he2 := insert_rec_error_eq _ _ _ hrec
            subst he2
            rw [← ihr x]
            simp [hrec]
          | ok u =>
            rw [← ihr x]
            simp [hrec, pure, Except.pure]
      · rw [if_neg h2, if_neg h2]
        simp

/-- A successful `_insert_rec` adds exactly the new key to the stored
values. -/
theorem mem_insert_rec : ∀ (t : RedBlackTree) (x : Int) (u : RedBlackTree),
    t.insert_rec x = .ok u → ∀ y, (y ∈ u.toList ↔ y = x ∨ y ∈ t.toList) := by
  intro t
  induction t with
  | nil =>
    intro x u h y
    simp only [insert_rec] at h
    cases h
    simp [toList]
  | node v c l r ihl ihr =>
    intro x u h y
    simp only [insert_rec] at h
    by_cases h1 : x < v
    · rw [if_pos h1] at h
      cases l with
      | nil =>
        cases h
        rw [toList_fix_up]
        simp only [toList, List.mem_append, List.mem_cons, List.not_mem_nil]
        tauto
      | node lv lc ll lr =>
        simp only [bind, Except.bind] at h
        cases hrec : (RedBlackTree.node lv lc ll lr).insert_rec x with
        | error e2 => rw [hrec] at h; cases h
        | ok w =>
          rw [hrec] at h
          simp only [pure, Except.pure] at h
          cases h
          rw [toList_fix_up]
          simp only [toList, List.mem_append, List.mem_cons]
          have hw := ihl x w hrec y
          rw [show (RedBlackTree.node lv lc ll lr).toList
            = ll.toList ++ lv :: lr.toList from rfl] at hw
          simp only [List.mem_append, List.mem_cons] at hw
          tauto
    · rw [if_neg h1] at h
      by_cases h2 : v < x
      · rw [if_pos h2] at h
        cases r with
        | nil =>
          cases h
          rw [toList_fix_up]
          simp only [toList, List.mem_append, List.mem_cons, List.not_mem_nil]
          tauto
        | node rv rc rl rr =>
          simp only [bind, Except.bind] at h
          cases hrec : (RedBlackTree.node rv rc rl rr).insert_rec x with
          | error e2 => rw [hrec] at h; cases h
          | ok w =>
            rw [hrec] at h
            simp only [pure, Except.pure] at h
            cases h
            rw [toList_fix_up]
            simp only [toList, List.mem_append, List.mem_cons]
            have hw := ihr x w hrec y
            rw [show (RedBlackTree.node rv rc rl rr).toList
              = rl.toList ++ rv :: rr.toList from rfl] at hw
            simp only [List.mem_append, List.mem_cons] at hw
            tauto
      · rw [if_neg h2] at h
        cases h

/-- A successful `_insert_rec` preserves the bound-checked BST property
when the new key respects the bounds. -/
theorem is_bst_go_insert_rec : ∀ (t : RedBlackTree) (x : Int) (u : RedBlackTree)
    (lo hi : Option Int), t.is_bst_go lo hi = true → lowOK lo x → highOK hi x →
    t.insert_rec x = .ok u → u.is_bst_go lo hi = true := by
  intro t
  induction t with
  | nil =>
    intro x u lo hi hb hlo hhi h
    simp only [insert_rec] at h
    cases h
    rw [is_bst_go_iff]
    simp only [toList, List.mem_append, List.mem_cons, List.not_mem_nil]
    constructor
    · simp
    · intro y hy
      simp at hy
      subst hy
      exact ⟨hlo, hhi⟩
  | node v c l r ihl ihr =>
    intro x u lo hi hb hlo hhi h
    simp only [insert_rec] at h
    simp only [is_bst_go] at hb
    simp only [Bool.and_eq_true, lowB_iff, highB_iff] at hb
    obtain ⟨⟨⟨hblo, hbhi⟩, hbl⟩, hbr⟩ := hb
    by_cases h1 : x < v
    · rw [if_pos h1] at h
      have step : ∀ w, l.insert_rec x = .ok w →
          u = (RedBlackTree.node v c w r).fix_up → u.is_bst_go lo hi = true := by
        intro w hrec hu
        subst hu
        rw [is_bst_go_congr (toList_fix_up _) lo hi]
        have hw := ihl x w lo (some v) hbl hlo h1 hrec
        simp only [is_bst_go, Bool.and_eq_true, lowB_iff, highB_iff]
        exact ⟨⟨⟨hblo, hbhi⟩, hw⟩, hbr⟩
      cases l with
      | nil =>
        cases h
        exact step _ (by simp [insert_rec]) rfl
      | node lv lc ll lr =>
        simp only [bind, Except.bind] at h
        cases hrec : (RedBlackTree.node lv lc ll lr).insert_rec x with
        | error e2 => rw [hrec] at h; cases h
        | ok w =>
          rw [hrec] at h
          simp only [pure, Except.pure] at h
          cases h
          exact step w hrec rfl
    · rw [if_neg h1] at h
      by_cases h2 : v < x
      · rw [if_pos h2] at h
        have step : ∀ w, r.insert_rec x = .ok w →
            u = (RedBlackTree.node v c l w).fix_up → u.is_bst_go lo hi = true := by
          intro w hrec hu
          subst hu
          rw [is_bst_go_congr (toList_fix_up _) lo hi]
          have hw := ihr x w (some v) hi hbr h2 hhi hrec
          simp only [is_bst_go, Bool.and_eq_true, lowB_iff, highB_iff]
          exact ⟨⟨⟨hblo, hbhi⟩, hbl⟩, hw⟩
        cases r with
        | nil =>
          cases h
          exact step _ (by simp [insert_rec]) rfl
        | node rv rc rl rr =>
          simp only [bind, Except.bind] at h
          cases hrec : (RedBlackTree.node rv rc rl rr).insert_rec x with
          | error e2 => rw [hrec] at h; cases h
          | ok w =>
            rw [hrec] at h
            simp only [pure, Except.pure] at h
            cases h
            exact step w hrec rfl
      · rw [if_neg h2] at h
        cases h


/-- Successful insertion through the public `insert`, with the returned
tree made explicit. -/
theorem insert_ok_iff (t : RedBlackTree) (x : Int) (u : RedBlackTree) :
    t.insert x = .ok u ↔ ∃ w, t.insert_rec x = .ok w ∧ u = w.paint_black := by
  rw [insert]
  cases h : t.insert_rec x with
  | error e => simp
  | ok w =>
    simp only [Except.ok.injEq]
    constructor
    · intro h2
      exact ⟨w, rfl, h2.symm⟩
    · rintro ⟨w2, hw2, hu⟩
      cases hw2
      exact hu.symm

/-- Bulk-construction invariant: folding `insert` over fresh keys succeeds
and accumulates exactly those keys, preserving the BST property. -/
theorem foldlM_insert_ok : ∀ (rest : List Int) (t : RedBlackTree) (done : List Int),
    t.is_bst = true → (∀ y, y ∈ t.toList ↔ y ∈ done) → (done ++ rest).Nodup →
    ∃ u, rest.foldlM insert t = .ok u ∧ u.is_bst = true ∧
      (∀ y, y ∈ u.toList ↔ y ∈ done ++ rest) := by
  intro rest
  induction rest with
  | nil =>
    intro t done h1 h2 h3
    exact ⟨t, rfl, h1, by simpa using h2⟩
  | cons x rest ih =>
    intro t done h1 h2 h3
    have hx : x ∉ done := by
      intro hmem
      rw [List.nodup_append] at h3
      exact h3.2.2 hmem (List.mem_cons_self x rest)
    have hc : ¬ t.contains x = true := by
      intro hct
      have hpw := (is_bst_iff_pairwise t).mp h1
      rw [contains_iff_mem t x hpw, h2 x] at hct
      exact hx hct
    obtain ⟨w, hw⟩ : ∃ w, t.insert_rec x = .ok w := by
      cases hrec : t.insert_rec x with
      | ok w => exact ⟨w, rfl⟩
      | error e =>
        have he := insert_rec_error_eq t x e hrec
        subst he
        rw [insert_rec_error_iff_contains] at hrec
        exact absurd hrec hc
    have hstep : t.insert x = .ok w.paint_black := by
      rw [insert, hw]
    have hbst : w.paint_black.is_bst = true := by
      have hb := is_bst_go_insert_rec t x w none none h1 trivial trivial hw
      rw [is_bst]
      rw [is_bst_go_congr (toList_paint_black w) none none]
      exact hb
    have hmem2 : ∀ y, y ∈ w.paint_black.toList ↔ y ∈ done ++ [x] := by
      intro y
      rw [toList_paint_black, mem_insert_rec t x w hw y, h2 y]
      simp only [List.mem_append, List.mem_cons, List.not_mem_nil, or_false]
      tauto
    have h32 : ((done ++ [x]) ++ rest).Nodup := by
      rw [List.append_assoc, List.singleton_append]
      exact h3
    obtain ⟨u, hu1, hu2, hu3⟩ := ih w.paint_black (done ++ [x]) hbst hmem2 h32
    refine ⟨u, ?_, hu2, ?_⟩
    · rw [List.foldlM_cons, hstep]
      simpa using hu1
    · intro y
      rw [hu3 y, List.append_assoc, List.singleton_append]


/-!
### Deletion of an absent key: no error, values untouched
-/

theorem toList_ite_move_red_left {p : Prop} [Decidable p] (t : RedBlackTree) :
    (if p then t.move_red_left else t).toList = t.toList := by
  split
  · exact toList_move_red_left t
  · rfl

theorem toList_ite_move_red_right {p : Prop} [Decidable p] (t : RedBlackTree) :
    (if p then t.move_red_right else t).toList = t.toList := by
  split
  · exact toList_move_red_right t
  · rfl

theorem ite_move_red_left_ne_nil {p : Prop} [Decidable p] {t : RedBlackTree}
    (h : t ≠ .nil) : (if p then t.move_red_left else t) ≠ .nil := by
  split
  · exact move_red_left_ne_nil h
  · exact h

theorem ite_move_red_right_ne_nil {p : Prop} [Decidable p] {t : RedBlackTree}
    (h : t ≠ .nil) : (if p then t.move_red_right else t) ≠ .nil := by
  split
  · exact move_red_right_ne_nil h
  · exact h

theorem ite_rotate_right_ne_nil {p : Prop} [Decidable p] {t : RedBlackTree}
    (h : t ≠ .nil) : (if p then t.rotate_right else t) ≠ .nil := by
  split
  · exact rotate_right_ne_nil h
  · exact h

/-- Deleting a key that is not stored never removes or reorders values and
never returns the absent tree: every branch either returns the subtree
unchanged or restructures it with traversal-preserving steps; the
node-removing branches require the key to equal a stored value. The claim
needs no validity assumption at all. -/
theorem delete_rec_not_mem : ∀ (k : Nat) (t : RedBlackTree) (x : Int),
    t.size ≤ k → x ∉ t.toList →
    (t.delete_rec x).toList = t.toList ∧ (t ≠ .nil → t.delete_rec x ≠ .nil) := by
  intro k
  induction k with
  | zero =>
    intro t x hsz hmem
    have ht : t = .nil := by
      cases t with
      | nil => rfl
      | node v c l r => simp [size] at hsz
    subst ht
    refine ⟨by rw [delete_rec], fun h => absurd rfl h⟩
  | succ k ih =>
    intro t x hsz hmem
    cases t with
    | nil => refine ⟨by rw [delete_rec], fun h => absurd rfl h⟩
    | node v c l r =>
      have keyL : ∀ t1 : RedBlackTree,
          t1.toList = (RedBlackTree.node v c l r).toList → t1 ≠ .nil →
          (t1.setLeft (t1.left.delete_rec x)).fix_up.toList
              = (RedBlackTree.node v c l r).toList ∧
            (t1.setLeft (t1.left.delete_rec x)).fix_up ≠ .nil := by
        intro t1 hlist hnn
        cases t1 with
        | nil => exact absurd rfl hnn
        | node v1 c1 l1 r1 =>
          have hx1 : x ∉ l1.toList := by
            intro hc
            apply hmem
            rw [← hlist]
            exact List.mem_append.mpr (Or.inl hc)
          have hszl : l1.size ≤ k := by
            have hsame : (RedBlackTree.node v1 c1 l1 r1).size
                = (RedBlackTree.node v c l r).size := by
              rw [← length_toList, ← length_toList, hlist]
            have hlt : l1.size < (RedBlackTree.node v1 c1 l1 r1).size := by
              simp only [size]
              omega
            omega
          obtain ⟨ih1, _⟩ := ih l1 x hszl hx1
          constructor
          · rw [toList_fix_up]
            show (l1.delete_rec x).toList ++ v1 :: r1.toList = _
            rw [ih1, ← hlist]
            rfl
          · exact fix_up_ne_nil (by simp [setLeft])
      have keyR : ∀ t2 : RedBlackTree,
          t2.toList = (RedBlackTree.node v c l r).toList → t2 ≠ .nil →
          (t2.setRight (t2.right.delete_rec x)).fix_up.toList
              = (RedBlackTree.node v c l r).toList ∧
            (t2.setRight (t2.right.delete_rec x)).fix_up ≠ .nil := by
        intro t2 hlist hnn
        cases t2 with
        | nil => exact absurd rfl hnn
        | node v2 c2 l2 r2 =>
          have hx2 : x ∉ r2.toList := by
            intro hc
            apply hmem
            rw [← hlist]
            exact List.mem_append.mpr (Or.inr (List.mem_cons_of_mem _ hc))
          have hszr : r2.size ≤ k := by
            have hsame : (RedBlackTree.node v2 c2 l2 r2).size
                = (RedBlackTree.node v c l r).size := by
              rw [← length_toList, ← length_toList, hlist]
            have hlt : r2.size < (RedBlackTree.node v2 c2 l2 r2).size := by
              simp only [size]
              omega
            omega
          obtain ⟨ih2, _⟩ := ih r2 x hszr hx2
          constructor
          · rw [toList_fix_up]
            show l2.toList ++ v2 :: (r2.delete_rec x).toList = _
            rw [ih2, ← hlist]
            rfl
          · exact fix_up_ne_nil (by simp [setRight])
      simp only [delete_rec]
      by_cases h1 : x < v
      · rw [if_pos h1]
        by_cases h2 : l = RedBlackTree.nil
        · rw [if_pos h2]
          exact ⟨rfl, fun _ => by simp⟩
        · rw [if_neg h2]
          generalize hM : (if (!(RedBlackTree.node v c l r).left.is_red &&
              !(RedBlackTree.node v c l r).left.left.is_red) = true
              then (RedBlackTree.node v c l r).move_red_left
              else (RedBlackTree.node v c l r)) = t1
          obtain ⟨ha, hb⟩ := keyL t1
            (by rw [← hM]; exact toList_ite_move_red_left _)
            (by rw [← hM]; exact ite_move_red_left_ne_nil (by simp))
          exact ⟨ha, fun _ => hb⟩
      · rw [if_neg h1]
        generalize hT1 : (if (RedBlackTree.node v c l r).left.is_red = true
            then (RedBlackTree.node v c l r).rotate_right
            else (RedBlackTree.node v c l r)) = t1
        have hnT1 : t1 ≠ .nil := by
          rw [← hT1]
          exact ite_rotate_right_ne_nil (by simp)
        have hLT1 : t1.toList = (RedBlackTree.node v c l r).toList := by
          rw [← hT1]
          exact toList_ite_rotate_right _
        have hxv1 : ¬(x = t1.value) := by
          intro he
          apply hmem
          rw [he, ← hLT1]
          exact value_mem_toList hnT1
        rw [if_neg (by simp [hxv1])]
        by_cases h3 : t1.right = RedBlackTree.nil
        · rw [if_pos h3]
          exact ⟨hLT1, fun _ => hnT1⟩
        · rw [if_neg h3]
          generalize hT2 : (if (!t1.right.is_red && !t1.right.left.is_red) = true
              then t1.move_red_right else t1) = t2
          have hnT2 : t2 ≠ .nil := by
            rw [← hT2]
            exact ite_move_red_right_ne_nil hnT1
          have hLT2 : t2.toList = (RedBlackTree.node v c l r).toList := by
            rw [← hT2, toList_ite_move_red_right]
            exact hLT1
          have hxv2 : ¬(x = t2.value) := by
            intro he
            apply hmem
            rw [he, ← hLT2]
            exact value_mem_toList hnT2
          rw [if_neg hxv2]
          obtain ⟨ha, hb⟩ := keyR _ hLT2 hnT2
          exact ⟨ha, fun _ => hb⟩

/-- Deleting an absent key through the public `delete` raises no error and
returns a tree with exactly the same inorder value sequence. -/
theorem delete_not_mem_ok (t : RedBlackTree) (x : Int) (hmem : x ∉ t.toList)
    (hnn : t ≠ .nil) : ∃ u, t.delete x = .ok u ∧ u.toList = t.toList := by
  obtain ⟨hlist, hne⟩ := delete_rec_not_mem t.size t x le_rfl hmem
  have hne2 := hne hnn
  rw [delete]
  have hguard : ¬(t.left = RedBlackTree.nil && t.right = RedBlackTree.nil &&
      t.value = x) = true := by
    simp only [Bool.and_eq_true, decide_eq_true_eq, not_and]
    intro _ hv
    exact hmem (hv ▸ value_mem_toList hnn)
  rw [if_neg hguard]
  cases hd : t.delete_rec x with
  | nil => exact absurd hd hne2
  | node dv dc dl dr =>
    refine ⟨(RedBlackTree.node dv dc dl dr).paint_black, rfl, ?_⟩
    rw [toList_paint_black, ← hd]
    exact hlist

theorem black_height_pos : ∀ (t : RedBlackTree) (n : Nat),
    t.black_height = some n → 1 ≤ n := by
  intro t
  induction t with
  | nil => intro n h; simp [black_height] at h; omega
  | node v c l r ihl ihr =>
    intro n h
    rw [black_height] at h
    cases hl : l.black_height with
    | none => rw [hl] at h; cases hr : r.black_height <;> rw [hr] at h <;> cases h
    | some lh =>
      rw [hl] at h
      cases hr : r.black_height with
      | none => rw [hr] at h; cases h
      | some rh =>
        rw [hr] at h
        replace h : (if lh = rh
            then some (lh + if c = Colour.Black then 1 else 0)
            else none) = some n := h
        by_cases he : lh = rh
        · rw [if_pos he] at h
          cases h
          have := ihl lh hl
          omega
        · rw [if_neg he] at h
          cases h

theorem black_height_node {v : Int} {c : Colour} {l r : RedBlackTree} {n : Nat}
    (h : (RedBlackTree.node v c l r).black_height = some n) :
    ∃ m, l.black_height = some m ∧ r.black_height = some m ∧
      n = m + (if c = Colour.Black then 1 else 0) := by
  rw [black_height] at h
  cases hl : l.black_height with
  | none => rw [hl] at h; cases hr : r.black_height <;> rw [hr] at h <;> cases h
  | some lh =>
    rw [hl] at h
    cases hr : r.black_height with
    | none => rw [hr] at h; cases h
    | some rh =>
      rw [hr] at h
      replace h : (if lh = rh
          then some (lh + if c = Colour.Black then 1 else 0)
          else none) = some n := h
      by_cases he : lh = rh
      · rw [if_pos he] at h
        cases h
        exact ⟨lh, rfl, by rw [he], rfl⟩
      · rw [if_neg he] at h
        cases h

/-- On a tree with more than one node in which an absent right child forces
a red left child, `_delete_rec` never returns the absent tree: the
`None`-returning branch needs the right child absent, and the preceding
rotation on the red left child makes the right child present. -/
theorem delete_rec_ne_nil_of_shape (v : Int) (c : Colour)
    (l r : RedBlackTree) (x : Int)
    (hshape : r = .nil → l.is_red = false → l = .nil)
    (hsz : 1 < (RedBlackTree.node v c l r).size) :
    (RedBlackTree.node v c l r).delete_rec x ≠ .nil := by
  simp only [delete_rec]
  by_cases h1 : x < v
  · rw [if_pos h1]
    by_cases h2 : l = RedBlackTree.nil
    · rw [if_pos h2]
      simp
    · rw [if_neg h2]
      exact fix_up_ne_nil (setLeft_ne_nil (ite_move_red_left_ne_nil (by simp)))
  · rw [if_neg h1]
    generalize hT1 : (if (RedBlackTree.node v c l r).left.is_red = true
        then (RedBlackTree.node v c l r).rotate_right
        else (RedBlackTree.node v c l r)) = t1
    have hnT1 : t1 ≠ .nil := by
      rw [← hT1]
      exact ite_rotate_right_ne_nil (by simp)
    have hrT1 : t1.right ≠ .nil := by
      rw [← hT1]
      by_cases hl : (RedBlackTree.node v c l r).left.is_red = true
      · rw [if_pos hl]
        simp only [left] at hl
        cases l with
        | nil => cases hl
        | node lv lc ll lr => simp [rotate_right, right]
      · rw [if_neg hl]
        simp only [left] at hl
        simp only [right]
        intro hrnil
        subst hrnil
        have hlnil : l = .nil := hshape rfl (by simpa using hl)
        subst hlnil
        simp [size] at hsz
    have hcond : ¬((x = t1.value && t1.right = RedBlackTree.nil) = true) := by
      simp only [Bool.and_eq_true, decide_eq_true_eq, not_and]
      intro _ hr2
      exact hrT1 hr2
    rw [if_neg hcond, if_neg hrT1]
    generalize hT2 : (if (!t1.right.is_red && !t1.right.left.is_red) = true
        then t1.move_red_right else t1) = t2
    have hnT2 : t2 ≠ .nil := by
      rw [← hT2]
      exact ite_move_red_right_ne_nil hnT1
    by_cases h4 : x = t2.value
    · rw [if_pos h4]
      exact fix_up_ne_nil (setRight_ne_nil (setValue_ne_nil hnT2))
    · rw [if_neg h4]
      exact fix_up_ne_nil (setRight_ne_nil hnT2)

end RedBlackTree

/-- C10: on a valid red-black tree with more than one node, `delete` never
raises the "Tree became empty after delete" error, for any key: with a
consistent black height, the `None`-returning branch of `_delete_rec` is
unreachable from the root. -/
theorem C10_delete_never_becameEmpty (t : RedBlackTree) (x : Int)
    (hrbt : t.is_rbt = true) (hsz : 1 < t.size) :
    t.delete x ≠ .error .becameEmpty := by
  cases t with
  | nil => simp [RedBlackTree.size] at hsz
  | node v c l r =>
    rw [RedBlackTree.is_rbt] at hrbt
    simp only [Bool.and_eq_true, Option.isSome_iff_exists] at hrbt
    obtain ⟨⟨⟨hcol, hbst⟩, hnrr⟩, n, hbh⟩ := hrbt
    have hshape : r = .nil → l.is_red = false → l = .nil := by
      intro hr hlred
      subst hr
      obtain ⟨m, hml, hmr, hval⟩ := RedBlackTree.black_height_node hbh
      have hm1 : m = 1 := by
        have : (RedBlackTree.nil : RedBlackTree).black_height = some 1 := rfl
        rw [this] at hmr
        cases hmr
        rfl
      subst hm1
      cases l with
      | nil => rfl
      | node lv lc ll lr =>
        cases lc with
        | Red => simp [RedBlackTree.is_red] at hlred
        | Black =>
          obtain ⟨m2, hml2, hmr2, hval2⟩ := RedBlackTree.black_height_node hml
          have := RedBlackTree.black_height_pos ll m2 hml2
          simp at hval2
          omega
    have hne := RedBlackTree.delete_rec_ne_nil_of_shape v c l r x hshape hsz
    rw [RedBlackTree.delete]
    by_cases hg : ((RedBlackTree.node v c l r).left = RedBlackTree.nil &&
        (RedBlackTree.node v c l r).right = RedBlackTree.nil &&
        (RedBlackTree.node v c l r).value = x) = true
    · rw [if_pos hg]
      intro h
      cases h
    · rw [if_neg hg]
      cases hd : (RedBlackTree.node v c l r).delete_rec x with
      | nil => exact absurd hd hne
      | node dv dc dl dr =>
        intro h
        cases h

/-- Witness for C10 on a two-node valid tree with the key `5`. -/
theorem C10_delete_never_becameEmpty_witness :
    (RedBlackTree.node 1 .Black (RedBlackTree.node 0 .Red .nil .nil) .nil).is_rbt
        = true ∧
      1 < (RedBlackTree.node 1 .Black (RedBlackTree.node 0 .Red .nil .nil) .nil).size ∧
      (RedBlackTree.node 1 .Black (RedBlackTree.node 0 .Red .nil .nil) .nil).delete 5
        ≠ .error .becameEmpty :=
  ⟨by decide, by decide,
    C10_delete_never_becameEmpty _ 5 (by decide) (by decide)⟩

namespace RedBlackTree

/-!
### The left-leaning red-black invariant: bridges and consequences
-/

theorem is_red_of_LLRB_red {t : RedBlackTree} {n : Nat} (h : LLRB t .Red n) :
    t.is_red = true := by
  cases h with
  | red v hl hr => rfl

theorem not_is_red_of_LLRB_black {t : RedBlackTree} {n : Nat}
    (h : LLRB t .Black n) : t.is_red = false := by
  cases h with
  | nil => rfl
  | black v hl hr => rfl

theorem LLRB_no_red_red : ∀ {t : RedBlackTree} {c : Colour} {n : Nat},
    LLRB t c n → t.no_red_red = true := by
  intro t
  induction t with
  | nil => intro c n h; rfl
  | node v c0 l r ihl ihr =>
    intro c n h
    cases h with
    | red v hl hr =>
      rw [no_red_red]
      simp only [if_pos rfl, not_is_red_of_LLRB_black hl, not_is_red_of_LLRB_black hr,
        ihl hl, ihr hr]
      rfl
    | black v hl hr =>
      rw [no_red_red]
      simp [ihl hl, ihr hr]

theorem LLRB_left_leaning : ∀ {t : RedBlackTree} {c : Colour} {n : Nat},
    LLRB t c n → t.left_leaning = true := by
  intro t
  induction t with
  | nil => intro c n h; rfl
  | node v c0 l r ihl ihr =>
    intro c n h
    cases h with
    | red v hl hr =>
      rw [left_leaning]
      simp [not_is_red_of_LLRB_black hr, ihl hl, ihr hr]
    | black v hl hr =>
      rw [left_leaning]
      simp [not_is_red_of_LLRB_black hr, ihl hl, ihr hr]

theorem LLRB_black_height : ∀ {t : RedBlackTree} {c : Colour} {n : Nat},
    LLRB t c n → t.black_height = some n := by
  intro t
  induction t with
  | nil =>
    intro c n h
    cases h
    rfl
  | node v c0 l r ihl ihr =>
    intro c n h
    cases h with
    | red v hl hr =>
      rw [black_height, ihl hl, ihr hr]
      simp
    | black v hl hr =>
      rw [black_height, ihl hl, ihr hr]
      simp

theorem LLRB_colour : ∀ {t : RedBlackTree} {c : Colour} {n : Nat},
    LLRB t c n → t.colour = c := by
  intro t c n h
  cases h with
  | nil => rfl
  | red v hl hr => rfl
  | black v hl hr => rfl

/-- Converse bridge: the Boolean validators plus the left-leaning check
characterise the inductive invariant. -/
theorem LLRB_of_validators : ∀ (t : RedBlackTree) (n : Nat),
    t.no_red_red = true → t.left_leaning = true → t.black_height = some n →
    LLRB t t.colour n := by
  intro t
  induction t with
  | nil =>
    intro n h1 h2 h3
    have : n = 1 := by
      simp [black_height] at h3
      omega
    subst this
    exact LLRB.nil
  | node v c l r ihl ihr =>
    intro n h1 h2 h3
    obtain ⟨m, hml, hmr, hval⟩ := black_height_node h3
    rw [no_red_red] at h1
    rw [left_leaning] at h2
    simp only [Bool.and_eq_true] at h1 h2
    obtain ⟨⟨hrr, hnl⟩, hnr⟩ := h1
    obtain ⟨⟨hllr, hlll⟩, hllrr⟩ := h2
    have hl := ihl m hnl hlll hml
    have hr := ihr m hnr hllrr hmr
    have hrblack : r.colour = .Black := by
      cases r with
      | nil => rfl
      | node rv rc rl rr =>
        cases rc with
        | Red => simp [is_red] at hllr
        | Black => rfl
    rw [hrblack] at hr
    cases c with
    | Red =>
      have hlblack : l.colour = .Black := by
        simp only [if_pos rfl, Bool.and_eq_true, Bool.not_eq_true] at hrr
        cases l with
        | nil => rfl
        | node lv lc ll lr =>
          cases lc with
          | Red => simp [is_red] at hrr
          | Black => rfl
      rw [hlblack] at hl
      have : n = m := by
        simp at hval
        omega
      subst this
      exact LLRB.red v hl hr
    | Black =>
      have hval2 : n = m + 1 := by simpa using hval
      subst hval2
      exact LLRB.black v hl hr

/-- Minimum size: a subtree of black height `n` stores at least
`2 ^ (n - 1) - 1` values, phrased without subtraction. -/
theorem LLRB_size : ∀ {t : RedBlackTree} {c : Colour} {n : Nat},
    LLRB t c n → 2 ^ n ≤ 2 * (t.size + 1) := by
  intro t
  induction t with
  | nil =>
    intro c n h
    cases h
    simp [size]
  | node v c0 l r ihl ihr =>
    intro c n h
    cases h with
    | red v hl hr =>
      have h1 := ihl hl
      simp only [size]
      omega
    | black v hl hr =>
      have h1 := ihl hl
      have h2 := ihr hr
      simp only [size]
      rw [pow_succ]
      omega

/-- Border weight used in the height bound: a black root guarantees two
more levels of slack than a red root. -/
def colourWeight : Colour → Nat
  | .Black => 2
  | .Red => 1

/-- Height against black height: along any path red nodes never repeat, so
the node-count height is at most twice the black height (with the usual
border corrections). -/
theorem LLRB_height : ∀ {t : RedBlackTree} {c : Colour} {n : Nat},
    LLRB t c n → t.height + colourWeight c ≤ 2 * n := by
  intro t
  induction t with
  | nil =>
    intro c n h
    cases h
    simp [height, colourWeight]
  | node v c0 l r ihl ihr =>
    intro c n h
    cases h with
    | red v hl hr =>
      have h1 := ihl hl
      have h2 := ihr hr
      simp only [colourWeight] at h1 h2 ⊢
      simp only [height]
      omega
    | black v hl hr =>
      rename_i cl m
      have h1 := ihl hl
      have h2 := ihr hr
      simp only [colourWeight] at h2 ⊢
      have h1b : l.height + 1 ≤ 2 * m := by
        cases cl with
        | Red => simpa [colourWeight] using h1
        | Black => simp [colourWeight] at h1; omega
      simp only [height]
      omega

/-- The node-count height of a valid left-leaning red-black tree `t`
satisfies `2 ^ height ≤ (size + 1) ^ 2`, the exponential form of
`height ≤ 2·log₂(size + 1)`. -/
theorem LLRB_height_size_bound {t : RedBlackTree} {n : Nat}
    (h : LLRB t .Black n) : 2 ^ t.height ≤ (t.size + 1) ^ 2 := by
  have hh : t.height + 2 ≤ 2 * n := LLRB_height h
  have hs := LLRB_size h
  have hn1 : 1 ≤ n := by
    cases h with
    | nil => exact le_refl 1
    | black v hl hr => omega
  have hs2 : 2 ^ (n - 1) ≤ t.size + 1 := by
    have : 2 ^ n = 2 * 2 ^ (n - 1) := by
      conv_lhs => rw [show n = (n - 1) + 1 by omega]
      rw [pow_succ]
      ring
    omega
  calc 2 ^ t.height ≤ 2 ^ (2 * n - 2) := Nat.pow_le_pow_right (by omega) (by omega)
    _ = (2 ^ (n - 1)) ^ 2 := by
      rw [← pow_mul]
      congr 1
      omega
    _ ≤ (t.size + 1) ^ 2 := Nat.pow_le_pow_left hs2 2

end RedBlackTree

namespace RedBlackTree

/-!
### `_fix_up` on shapes with known child colours
-/

theorem is_red_node_red (v : Int) (l r : RedBlackTree) :
    (RedBlackTree.node v .Red l r).is_red = true := rfl

theorem is_red_node_black (v : Int) (l r : RedBlackTree) :
    (RedBlackTree.node v .Black l r).is_red = false := rfl

theorem is_red_nil : (RedBlackTree.nil).is_red = false := rfl

theorem left_node (v : Int) (c : Colour) (l r : RedBlackTree) :
    (RedBlackTree.node v c l r).left = l := rfl

theorem right_node (v : Int) (c : Colour) (l r : RedBlackTree) :
    (RedBlackTree.node v c l r).right = r := rfl

theorem rotate_left_node (v rv : Int) (c rc : Colour) (l rl rr : RedBlackTree) :
    (RedBlackTree.node v c l (.node rv rc rl rr)).rotate_left
      = RedBlackTree.node rv c (.node v .Red l rl) rr := rfl

theorem rotate_right_node (v lv : Int) (c lc : Colour) (ll lr r : RedBlackTree) :
    (RedBlackTree.node v c (.node lv lc ll lr) r).rotate_right
      = RedBlackTree.node lv c ll (.node v .Red lr r) := rfl

theorem flip_colours_node (v : Int) (c : Colour) (l r : RedBlackTree) :
    (RedBlackTree.node v c l r).flip_colours
      = RedBlackTree.node v c.toggle l.toggleRoot r.toggleRoot := rfl

theorem toggleRoot_node (v : Int) (c : Colour) (l r : RedBlackTree) :
    (RedBlackTree.node v c l r).toggleRoot = RedBlackTree.node v c.toggle l r := rfl

/-- No red child: `_fix_up` does nothing. -/
theorem fix_up_id {v : Int} {c : Colour} {l r : RedBlackTree}
    (hl : l.is_red = false) (hr : r.is_red = false) :
    (RedBlackTree.node v c l r).fix_up = RedBlackTree.node v c l r := by
  simp [fix_up, left_node, right_node, hl, hr]

/-- A single left-leaning red link: `_fix_up` does nothing. -/
theorem fix_up_left_red {v lv : Int} {c : Colour} {la lb r : RedBlackTree}
    (hla : la.is_red = false) (hr : r.is_red = false) :
    (RedBlackTree.node v c (.node lv .Red la lb) r).fix_up
      = RedBlackTree.node v c (.node lv .Red la lb) r := by
  simp [fix_up, left_node, right_node, hla, hr, is_red_node_red]

/-- A right-leaning red link with nothing red on the left: `_fix_up` is the
left rotation. -/
theorem fix_up_right_red {v rv : Int} {c : Colour} {l rl rr : RedBlackTree}
    (hl : l.is_red = false) (hrr : rr.is_red = false) :
    (RedBlackTree.node v c l (.node rv .Red rl rr)).fix_up
      = RedBlackTree.node rv c (.node v .Red l rl) rr := by
  simp [fix_up, left_node, right_node, hl, hrr, is_red_node_red,
    rotate_left_node]

/-- Both children red (and no double-left-red): `_fix_up` is the colour
flip. -/
theorem fix_up_both_red {v lv : Int} {c : Colour} {la lb r : RedBlackTree}
    (hla : la.is_red = false) (hr : r.is_red = true) :
    (RedBlackTree.node v c (.node lv .Red la lb) r).fix_up
      = RedBlackTree.node v c.toggle (.node lv .Black la lb) r.toggleRoot := by
  simp [fix_up, left_node, right_node, hla, hr, is_red_node_red,
    flip_colours_node, toggleRoot_node, Colour.toggle]

/-- A double left red link: `_fix_up` rotates right and then flips. -/
theorem fix_up_double_left {v lv : Int} {c : Colour} {la lb r : RedBlackTree}
    (hla : la.is_red = true) (hr : r.is_red = false) :
    (RedBlackTree.node v c (.node lv .Red la lb) r).fix_up
      = RedBlackTree.node lv c.toggle la.toggleRoot (.node v .Black lb r) := by
  simp [fix_up, left_node, right_node, hla, hr, is_red_node_red,
    rotate_right_node, flip_colours_node, toggleRoot_node, Colour.toggle]

/-!
### Inversion facts for the invariant
-/

theorem LLRB_pos {t : RedBlackTree} {c : Colour} {n : Nat} (h : LLRB t c n) :
    1 ≤ n := by
  induction h with
  | nil => exact le_refl 1
  | red v hl hr ihl ihr => exact ihl
  | black v hl hr ihl ihr => omega

theorem LLRB_black_one {t : RedBlackTree} (h : LLRB t .Black 1) : t = .nil := by
  cases h with
  | nil => rfl
  | black v hl hr =>
    rename_i cl m
    have := LLRB_pos hl
    omega

theorem LLRB_red_shape {t : RedBlackTree} {n : Nat} (h : LLRB t .Red n) :
    ∃ v l r, t = RedBlackTree.node v .Red l r ∧ LLRB l .Black n ∧ LLRB r .Black n := by
  cases h with
  | red v hl hr => exact ⟨v, _, _, rfl, hl, hr⟩

theorem LLRB_toggle_red {t : RedBlackTree} {n : Nat} (h : LLRB t .Red n) :
    LLRB t.toggleRoot .Black (n + 1) := by
  obtain ⟨v, l, r, rfl, hl, hr⟩ := LLRB_red_shape h
  exact LLRB.black v hl hr

theorem left_is_red_of_LLRB_red {t : RedBlackTree} {n : Nat} (h : LLRB t .Red n) :
    t.left.is_red = false := by
  obtain ⟨v, l, r, rfl, hl, hr⟩ := LLRB_red_shape h
  exact not_is_red_of_LLRB_black hl

end RedBlackTree

namespace RedBlackTree

/-- Colour/height invariant of `_insert_rec`: inserting below a black root
returns a valid subtree of unchanged black height whose root may have
turned red; inserting below a red root returns either a valid red-rooted
subtree or the transient red-root/red-left-child state `AlmostL`, which the
parent of the red root repairs. -/
theorem insert_rec_LLRB : ∀ (t : RedBlackTree) (x : Int) (c : Colour) (n : Nat)
    (u : RedBlackTree), LLRB t c n → t.insert_rec x = .ok u →
    (c = .Black → (LLRB u .Black n ∨ LLRB u .Red n)) ∧
    (c = .Red → (LLRB u .Red n ∨ AlmostL u n)) := by
  intro t
  induction t with
  | nil =>
    intro x c n u hLL hins
    cases hLL
    simp only [insert_rec, Except.ok.injEq] at hins
    subst hins
    constructor
    · intro _
      exact Or.inr (LLRB.red x LLRB.nil LLRB.nil)
    · intro hc
      exact absurd hc (by decide)
  | node v c0 l r ihl ihr =>
    intro x c n u hLL hins
    simp only [insert_rec] at hins
    by_cases h1 : x < v
    · rw [if_pos h1] at hins
      by_cases h2 : l = RedBlackTree.nil
      · rw [if_pos h2] at hins
        subst h2
        simp only [Except.ok.injEq] at hins
        subst hins
        cases hLL with
        | red _ hl hr =>
          cases hl
          have hrnil : r = .nil := LLRB_black_one hr
          subst hrnil
          rw [fix_up_left_red is_red_nil is_red_nil]
          refine ⟨fun hc => absurd hc (by decide), fun _ => Or.inr ?_⟩
          exact ⟨v, _, _, rfl, LLRB.red x LLRB.nil LLRB.nil, LLRB.nil⟩
        | black _ hl hr =>
          cases hl
          have hrnil : r = .nil := LLRB_black_one hr
          subst hrnil
          rw [fix_up_left_red is_red_nil is_red_nil]
          refine ⟨fun _ => Or.inl ?_, fun hc => absurd hc (by decide)⟩
          exact LLRB.black v (LLRB.red x LLRB.nil LLRB.nil) LLRB.nil
      · rw [if_neg h2] at hins
        simp only [bind, Except.bind] at hins
        cases hrec : l.insert_rec x with
        | error e =>
          rw [hrec] at hins
          cases hins
        | ok w =>
          rw [hrec] at hins
          simp only [pure, Except.pure, Except.ok.injEq] at hins
          subst hins
          cases hLL with
          | red _ hl hr =>
            have hw := ((ihl x .Black _ w hl hrec).1 rfl)
            refine ⟨fun hc => absurd hc (by decide), fun _ => ?_⟩
            cases hw with
            | inl hwB =>
              rw [fix_up_id (not_is_red_of_LLRB_black hwB)
                (not_is_red_of_LLRB_black hr)]
              exact Or.inl (LLRB.red v hwB hr)
            | inr hwR =>
              obtain ⟨wv, wa, wb, rfl, hwa, hwb⟩ := LLRB_red_shape hwR
              rw [fix_up_left_red (not_is_red_of_LLRB_black hwa)
                (not_is_red_of_LLRB_black hr)]
              exact Or.inr ⟨v, _, _, rfl, LLRB.red wv hwa hwb, hr⟩
          | black _ hl hr =>
            rename_i cl m
            refine ⟨fun _ => ?_, fun hc => absurd hc (by decide)⟩
            cases cl with
            | Black =>
              have hw := ((ihl x .Black _ w hl hrec).1 rfl)
              cases hw with
              | inl hwB =>
                rw [fix_up_id (not_is_red_of_LLRB_black hwB)
                  (not_is_red_of_LLRB_black hr)]
                exact Or.inl (LLRB.black v hwB hr)
              | inr hwR =>
                obtain ⟨wv, wa, wb, rfl, hwa, hwb⟩ := LLRB_red_shape hwR
                rw [fix_up_left_red (not_is_red_of_LLRB_black hwa)
                  (not_is_red_of_LLRB_black hr)]
                exact Or.inl (LLRB.black v (LLRB.red wv hwa hwb) hr)
            | Red =>
              have hw := ((ihl x .Red _ w hl hrec).2 rfl)
              cases hw with
              | inl hwR =>
                obtain ⟨wv, wa, wb, rfl, hwa, hwb⟩ := LLRB_red_shape hwR
                rw [fix_up_left_red (not_is_red_of_LLRB_black hwa)
                  (not_is_red_of_LLRB_black hr)]
                exact Or.inl (LLRB.black v (LLRB.red wv hwa hwb) hr)
              | inr hwA =>
                obtain ⟨wv, wa, wb, rfl, hwa, hwb⟩ := hwA
                rw [fix_up_double_left (is_red_of_LLRB_red hwa)
                  (not_is_red_of_LLRB_black hr)]
                exact Or.inr (LLRB.red wv (LLRB_toggle_red hwa) (LLRB.black v hwb hr))
    · rw [if_neg h1] at hins
      by_cases h2 : v < x
      · rw [if_pos h2] at hins
        by_cases h3 : r = RedBlackTree.nil
        · rw [if_pos h3] at hins
          subst h3
          simp only [Except.ok.injEq] at hins
          subst hins
          cases hLL with
          | red _ hl hr =>
            cases hr
            have hlnil : l = .nil := LLRB_black_one hl
            subst hlnil
            rw [fix_up_right_red is_red_nil is_red_nil]
            refine ⟨fun hc => absurd hc (by decide), fun _ => Or.inr ?_⟩
            exact ⟨x, _, _, rfl, LLRB.red v LLRB.nil LLRB.nil, LLRB.nil⟩
          | black _ hl hr =>
            rename_i cl m
            cases hr
            refine ⟨fun _ => ?_, fun hc => absurd hc (by decide)⟩
            cases cl with
            | Black =>
              have hlnil : l = .nil := LLRB_black_one hl
              subst hlnil
              rw [fix_up_right_red is_red_nil is_red_nil]
              exact Or.inl (LLRB.black x (LLRB.red v LLRB.nil LLRB.nil) LLRB.nil)
            | Red =>
              obtain ⟨lv, la, lb, rfl, hla, hlb⟩ := LLRB_red_shape hl
              have hlanil : la = .nil := LLRB_black_one hla
              have hlbnil : lb = .nil := LLRB_black_one hlb
              subst hlanil
              subst hlbnil
              rw [fix_up_both_red is_red_nil (is_red_node_red x .nil .nil)]
              exact Or.inr (LLRB.red v
                (LLRB.black lv LLRB.nil LLRB.nil)
                (LLRB.black x LLRB.nil LLRB.nil))
        · rw [if_neg h3] at hins
          simp only [bind, Except.bind] at hins
          cases hrec : r.insert_rec x with
          | error e =>
            rw [hrec] at hins
            cases hins
          | ok w =>
            rw [hrec] at hins
            simp only [pure, Except.pure, Except.ok.injEq] at hins
            subst hins
            cases hLL with
            | red _ hl hr =>
              have hw := ((ihr x .Black _ w hr hrec).1 rfl)
              refine ⟨fun hc => absurd hc (by decide), fun _ => ?_⟩
              cases hw with
              | inl hwB =>
                rw [fix_up_id (not_is_red_of_LLRB_black hl)
                  (not_is_red_of_LLRB_black hwB)]
                exact Or.inl (LLRB.red v hl hwB)
              | inr hwR =>
                obtain ⟨wv, wa, wb, rfl, hwa, hwb⟩ := LLRB_red_shape hwR
                rw [fix_up_right_red (not_is_red_of_LLRB_black hl)
                  (not_is_red_of_LLRB_black hwb)]
                exact Or.inr ⟨wv, _, _, rfl, LLRB.red v hl hwa, hwb⟩
            | black _ hl hr =>
              rename_i cl m
              have hw := ((ihr x .Black _ w hr hrec).1 rfl)
              refine ⟨fun _ => ?_, fun hc => absurd hc (by decide)⟩
              cases cl with
              | Black =>
                cases hw with
                | inl hwB =>
                  rw [fix_up_id (not_is_red_of_LLRB_black hl)
                    (not_is_red_of_LLRB_black hwB)]
                  exact Or.inl (LLRB.black v hl hwB)
                | inr hwR =>
                  obtain ⟨wv, wa, wb, rfl, hwa, hwb⟩ := LLRB_red_shape hwR
                  rw [fix_up_right_red (not_is_red_of_LLRB_black hl)
                    (not_is_red_of_LLRB_black hwb)]
                  exact Or.inl (LLRB.black wv (LLRB.red v hl hwa) hwb)
              | Red =>
                obtain ⟨lv, la, lb, rfl, hla, hlb⟩ := LLRB_red_shape hl
                cases hw with
                | inl hwB =>
                  rw [fix_up_left_red (not_is_red_of_LLRB_black hla)
                    (not_is_red_of_LLRB_black hwB)]
                  exact Or.inl (LLRB.black v (LLRB.red lv hla hlb) hwB)
                | inr hwR =>
                  rw [fix_up_both_red (not_is_red_of_LLRB_black hla)
                    (is_red_of_LLRB_red hwR)]
                  exact Or.inr (LLRB.red v
                    (LLRB.black lv hla hlb)
                    (LLRB_toggle_red hwR))
      · rw [if_neg h2] at hins
        cases hins

end RedBlackTree

namespace RedBlackTree

/-- Recolouring a valid or red-valid root black yields a valid black tree
(possibly one black level higher). -/
theorem paint_black_LLRB {w : RedBlackTree} {n : Nat}
    (h : LLRB w .Black n ∨ LLRB w .Red n) :
    ∃ m, LLRB w.paint_black .Black m := by
  cases h with
  | inl hB =>
    cases hB with
    | nil => exact ⟨1, LLRB.nil⟩
    | black v hl hr => exact ⟨_, LLRB.black v hl hr⟩
  | inr hR =>
    obtain ⟨v, l, r, rfl, hl, hr⟩ := LLRB_red_shape hR
    exact ⟨n + 1, LLRB.black v hl hr⟩

/-- The public `insert` keeps the tree a valid black-rooted left-leaning
red-black tree. -/
theorem insert_LLRB {t : RedBlackTree} {n : Nat} {x : Int} {u : RedBlackTree}
    (h : LLRB t .Black n) (hok : t.insert x = .ok u) :
    ∃ m, LLRB u .Black m := by
  rw [insert] at hok
  cases hrec : t.insert_rec x with
  | error e => rw [hrec] at hok; cases hok
  | ok w =>
    rw [hrec] at hok
    simp only [Except.ok.injEq] at hok
    subst hok
    exact paint_black_LLRB ((insert_rec_LLRB t x .Black n w h hrec).1 rfl)

theorem foldlM_insert_LLRB : ∀ (rest : List Int) (t : RedBlackTree) (n : Nat)
    (u : RedBlackTree), LLRB t .Black n → rest.foldlM insert t = .ok u →
    ∃ m, LLRB u .Black m := by
  intro rest
  induction rest with
  | nil =>
    intro t n u h hok
    cases hok
    exact ⟨n, h⟩
  | cons x rest ih =>
    intro t n u h hok
    rw [List.foldlM_cons] at hok
    simp only [bind, Except.bind] at hok
    cases hins : t.insert x with
    | error e => rw [hins] at hok; cases hok
    | ok w =>
      rw [hins] at hok
      obtain ⟨m, hm⟩ := insert_LLRB h hins
      exact ih w m u hm hok

end RedBlackTree

/-- C7: a tree built by `fromList` from `n ≥ 1` pairwise-distinct values
(the first value becoming the single-node root, the rest inserted one by
one) has height at most `2·log₂(n+1)`; stated in the equivalent
exponential form `2 ^ height ≤ (n+1)²`, where height counts the nodes on a
longest root-to-leaf path. -/
theorem C7_fromList_height_bound (xs : List Int) (t : RedBlackTree)
    (hnd : xs.Nodup) (hok : RedBlackTree.fromList xs = .ok (some t)) :
    2 ^ t.height ≤ (xs.length + 1) ^ 2 := by
  cases xs with
  | nil =>
    rw [RedBlackTree.fromList] at hok
    cases hok
  | cons x rest =>
    rw [RedBlackTree.fromList] at hok
    simp only [bind, Except.bind] at hok
    cases hfold : rest.foldlM RedBlackTree.insert
        (RedBlackTree.node x .Black .nil .nil) with
    | error e => rw [hfold] at hok; cases hok
    | ok w =>
      rw [hfold] at hok
      simp only [pure, Except.pure, Except.ok.injEq, Option.some.injEq] at hok
      have h0 : RedBlackTree.LLRB (RedBlackTree.node x .Black .nil .nil) .Black 2 :=
        RedBlackTree.LLRB.black x RedBlackTree.LLRB.nil RedBlackTree.LLRB.nil
      obtain ⟨m, hm⟩ := RedBlackTree.foldlM_insert_LLRB rest _ 2 w h0 hfold
      have hbound := RedBlackTree.LLRB_height_size_bound hm
      -- identify the size with the input length
      have h0b : (RedBlackTree.node x .Black .nil .nil).is_bst = true := by
        rw [RedBlackTree.is_bst_iff_pairwise]
        simp [RedBlackTree.toList]
      have hmem0 : ∀ y, y ∈ (RedBlackTree.node x .Black .nil .nil).toList ↔ y ∈ [x] := by
        intro y
        simp [RedBlackTree.toList]
      have hnodup : (([x] : List Int) ++ rest).Nodup := by simpa using hnd
      obtain ⟨u, hu1, hu2, hu3⟩ :=
        RedBlackTree.foldlM_insert_ok rest (RedBlackTree.node x .Black .nil .nil) [x]
          h0b hmem0 hnodup
      rw [hfold] at hu1
      cases hu1
      have hpw := (RedBlackTree.is_bst_iff_pairwise w).mp hu2
      have hnd2 : w.toList.Nodup := hpw.imp (fun hab => ne_of_lt hab)
      have hperm : w.toList.Perm ([x] ++ rest) := by
        rw [List.perm_ext_iff_of_nodup hnd2 hnodup]
        exact hu3
      have hlen : w.toList.length = ([x] ++ rest).length := hperm.length_eq
      rw [RedBlackTree.length_toList] at hlen
      have hsz : w.size = rest.length + 1 := by
        simpa using hlen
      rw [← hok]
      have hlen2 : (x :: rest).length = rest.length + 1 := by simp
      rw [hlen2, ← hsz]
      exact hbound

/-- Witness for C7 on the list `[1, 2, 3]`. -/
theorem C7_fromList_height_bound_witness :
    ([1, 2, 3] : List Int).Nodup ∧
      RedBlackTree.fromList [1, 2, 3] = .ok (some (RedBlackTree.node 2 .Black
        (RedBlackTree.node 1 .Black .nil .nil)
        (RedBlackTree.node 3 .Black .nil .nil))) ∧
      2 ^ (RedBlackTree.node 2 .Black
        (RedBlackTree.node 1 .Black .nil .nil)
        (RedBlackTree.node 3 .Black .nil .nil)).height
        ≤ (([1, 2, 3] : List Int).length + 1) ^ 2 :=
  ⟨by decide, by rfl,
    C7_fromList_height_bound [1, 2, 3] _ (by decide) (by rfl)⟩

namespace RedBlackTree

/-!
### Helpers for the deletion invariant proof
-/

theorem Colour.toggle_toggle (c : Colour) : c.toggle.toggle = c := by
  cases c <;> rfl

theorem Colour.toggle_red : Colour.Red.toggle = Colour.Black := rfl

theorem Colour.toggle_black : Colour.Black.toggle = Colour.Red := rfl

theorem LLRB_black_of_not_red {t : RedBlackTree} {cl : Colour} {m : Nat}
    (h : LLRB t cl m) (hnr : t.is_red = false) : cl = .Black := by
  cases h with
  | nil => rfl
  | red v hl hr => simp [is_red] at hnr
  | black v hl hr => rfl

theorem LLRB_black_shape {t : RedBlackTree} {n : Nat} (h : LLRB t .Black n)
    (hnn : t ≠ .nil) :
    ∃ v l r cl m, t = RedBlackTree.node v .Black l r ∧ LLRB l cl m ∧
      LLRB r .Black m ∧ n = m + 1 := by
  cases h with
  | nil => exact absurd rfl hnn
  | black v hl hr => exact ⟨v, _, _, _, _, rfl, hl, hr, rfl⟩

theorem tail_append_left {A B : List Int} (h : A ≠ []) :
    (A ++ B).tail = A.tail ++ B := by
  cases A with
  | nil => exact absurd rfl h
  | cons a as => rfl

theorem cons_head_tail {l : List Int} {a : Int} (h : l.head? = some a) :
    a :: l.tail = l := by
  cases l with
  | nil => cases h
  | cons b bs =>
    simp only [List.head?_cons, Option.some.injEq] at h
    subst h
    rfl

theorem erase_append_of_forall_lt {A B : List Int} {x : Int}
    (hB : ∀ y ∈ B, x < y) : (A ++ B).erase x = A.erase x ++ B := by
  by_cases hx : x ∈ A
  · exact List.erase_append_left B hx
  · have hxB : x ∉ B := fun hmem => absurd (hB x hmem) (lt_irrefl x)
    have hxAB : x ∉ A ++ B := by
      simp only [List.mem_append]
      tauto
    rw [List.erase_of_not_mem hxAB, List.erase_of_not_mem hx]

theorem erase_cons_of_ne {b x : Int} {l : List Int} (h : b ≠ x) :
    (b :: l).erase x = b :: l.erase x :=
  List.erase_cons_tail (by simpa using h)

/-- `_move_red_left` when the right child's left child is not red: a plain
colour flip. -/
theorem move_red_left_no_rot {v rv : Int} {c rc : Colour} {l rl rr : RedBlackTree}
    (h : rl.is_red = false) :
    (RedBlackTree.node v c l (.node rv rc rl rr)).move_red_left
      = RedBlackTree.node v c.toggle l.toggleRoot (.node rv rc.toggle rl rr) := by
  simp [move_red_left, flip_colours_node, toggleRoot_node, left_node, right_node, h]

/-- `_move_red_left` when the right child's left child is red: flip, double
rotation, flip. -/
theorem move_red_left_rot {v rv rlv : Int} {c rc : Colour}
    {l a b rr : RedBlackTree} :
    (RedBlackTree.node v c l (.node rv rc (.node rlv .Red a b) rr)).move_red_left
      = RedBlackTree.node rlv c (.node v .Black l.toggleRoot a)
          (.node rv .Black b rr) := by
  simp [move_red_left, flip_colours_node, toggleRoot_node, left_node, right_node,
    is_red_node_red, rotate_right_node, rotate_left_node, setRight,
    Colour.toggle_toggle, Colour.toggle_red, Colour.toggle_black]

/-- `_move_red_right` when the left child's left child is not red: a plain
colour flip (also covering an absent left child). -/
theorem move_red_right_no_rot {v : Int} {c : Colour} {l r : RedBlackTree}
    (h : l.left.is_red = false) :
    (RedBlackTree.node v c l r).move_red_right
      = RedBlackTree.node v c.toggle l.toggleRoot r.toggleRoot := by
  have h2 : l.toggleRoot.left = l.left := by
    cases l <;> rfl
  simp [move_red_right, flip_colours_node, left_node, h2, h]

/-- `_move_red_right` when the left child's left child is red: flip,
rotation, flip. -/
theorem move_red_right_rot {v lv llv : Int} {c lc : Colour}
    {p q lr r : RedBlackTree} :
    (RedBlackTree.node v c (.node lv lc (.node llv .Red p q) lr) r).move_red_right
      = RedBlackTree.node lv c (.node llv .Black p q)
          (.node v .Black lr r.toggleRoot) := by
  simp [move_red_right, flip_colours_node, toggleRoot_node, left_node, right_node,
    is_red_node_red, rotate_right_node, Colour.toggle_toggle, Colour.toggle_red,
    Colour.toggle_black]

end RedBlackTree

namespace RedBlackTree

theorem delete_min_node (v : Int) (c : Colour) (l r : RedBlackTree) :
    (RedBlackTree.node v c l r).delete_min
      = if l = .nil then .nil
        else ((if (!(RedBlackTree.node v c l r).left.is_red &&
                !(RedBlackTree.node v c l r).left.left.is_red) = true
              then (RedBlackTree.node v c l r).move_red_left
              else (RedBlackTree.node v c l r)).setLeft
              ((if (!(RedBlackTree.node v c l r).left.is_red &&
                !(RedBlackTree.node v c l r).left.left.is_red) = true
              then (RedBlackTree.node v c l r).move_red_left
              else (RedBlackTree.node v c l r)).left).delete_min).fix_up := by
  rw [delete_min]

theorem delete_min_eq_nil_left (v : Int) (c : Colour) (r : RedBlackTree) :
    (RedBlackTree.node v c .nil r).delete_min = .nil := by
  rw [delete_min_node]
  simp

theorem delete_min_eq_no_mrl (v : Int) (c : Colour) (l r : RedBlackTree)
    (h1 : l ≠ .nil) (h : l.is_red = true ∨ l.left.is_red = true) :
    (RedBlackTree.node v c l r).delete_min
      = (RedBlackTree.node v c l.delete_min r).fix_up := by
  rw [delete_min_node]
  rw [if_neg h1]
  have hc : ¬((!(RedBlackTree.node v c l r).left.is_red &&
      !(RedBlackTree.node v c l r).left.left.is_red) = true) := by
    rcases h with h | h <;> simp [left_node, h]
  rw [if_neg hc]
  rfl

theorem delete_min_eq_cold (v : Int) (c : Colour) (l r : RedBlackTree)
    (h1 : l ≠ .nil) (h2 : l.is_red = false) (h3 : l.left.is_red = false) :
    (RedBlackTree.node v c l r).delete_min
      = ((RedBlackTree.node v c l r).move_red_left.setLeft
          ((RedBlackTree.node v c l r).move_red_left.left).delete_min).fix_up := by
  rw [delete_min_node]
  rw [if_neg h1]
  have hc : ((!(RedBlackTree.node v c l r).left.is_red &&
      !(RedBlackTree.node v c l r).left.left.is_red) = true) := by
    simp [left_node, h2, h3]
  rw [if_pos hc]

end RedBlackTree

namespace RedBlackTree

theorem toList_node (v : Int) (c : Colour) (l r : RedBlackTree) :
    (RedBlackTree.node v c l r).toList = l.toList ++ v :: r.toList := rfl

theorem toList_nil : (RedBlackTree.nil).toList = [] := rfl

/-- Invariant of `_delete_min`: on a red-rooted valid subtree it removes
the leftmost value and returns a valid subtree of unchanged black height
(absent exactly when the input was a single red node); on a black-rooted
valid subtree whose left child is red it removes the leftmost value and
returns a black-rooted valid subtree of unchanged black height. -/
theorem delete_min_spec : ∀ (k : Nat) (t : RedBlackTree) (n : Nat), t.size ≤ k →
    ((LLRB t .Red n →
      t.delete_min.toList = t.toList.tail ∧
      (t.delete_min = .nil → n = 1) ∧
      (t.delete_min ≠ .nil →
        (LLRB t.delete_min .Black n ∨ LLRB t.delete_min .Red n))) ∧
     (LLRB t .Black n → t.left.is_red = true →
      t.delete_min.toList = t.toList.tail ∧ LLRB t.delete_min .Black n)) := by
  intro k
  induction k with
  | zero =>
    intro t n hsz
    have ht : t = .nil := by
      cases t with
      | nil => rfl
      | node v c l r => simp [size] at hsz
    subst ht
    constructor
    · intro hR
      cases hR
    · intro hB hlr
      simp [left, is_red] at hlr
  | succ k ih =>
    intro t n hsz
    constructor
    · -- red-rooted input
      intro hR
      obtain ⟨v, l, r, rfl, hl, hr⟩ := LLRB_red_shape hR
      by_cases hlnil : l = RedBlackTree.nil
      · subst hlnil
        cases hl
        have hrnil : r = .nil := LLRB_black_one hr
        subst hrnil
        rw [delete_min_eq_nil_left]
        exact ⟨rfl, fun _ => rfl, fun hc => absurd rfl hc⟩
      · obtain ⟨lv, ll, lr, cll, m, rfl, hll, hlr2, hm⟩ := LLRB_black_shape hl hlnil
        have hlne : (RedBlackTree.node lv .Black ll lr).toList ≠ [] := by
          rw [ne_eq, toList_eq_nil_iff]
          simp
        by_cases hllred : ll.is_red = true
        · -- left child black with red left grandchild: recurse directly
          rw [delete_min_eq_no_mrl v .Red (RedBlackTree.node lv .Black ll lr) r
            (by simp) (Or.inr (by simpa [left_node] using hllred))]
          have hszl : (RedBlackTree.node lv .Black ll lr).size ≤ k := by
            simp only [size] at hsz ⊢
            omega
          obtain ⟨hol, hoB⟩ :=
            (ih (RedBlackTree.node lv .Black ll lr) n hszl).2 hl
              (by simpa [left_node] using hllred)
          rw [fix_up_id (not_is_red_of_LLRB_black hoB) (not_is_red_of_LLRB_black hr)]
          refine ⟨?_, fun hc => absurd hc (by simp), fun _ => Or.inr (LLRB.red v hoB hr)⟩
          conv_rhs => rw [toList_node, tail_append_left hlne]
          rw [← hol]
          exact toList_node v .Red _ r
        · -- cold left child: move_red_left fires
          have hcll : cll = .Black := LLRB_black_of_not_red hll (by simpa using hllred)
          subst hcll
          have hrnn : r ≠ .nil := by
            intro hc
            subst hc
            cases hr
            have := LLRB_pos hll
            omega
          obtain ⟨rv, rl, rr, clr, m2, rfl, hrl, hrr, hm2⟩ := LLRB_black_shape hr hrnn
          have hmm : m2 = m := by omega
          subst hmm
          subst hm
          rw [delete_min_eq_cold v .Red (RedBlackTree.node lv .Black ll lr)
            (RedBlackTree.node rv .Black rl rr) (by simp) (by simp [is_red])
            (by simpa [left_node] using (by simpa using hllred : ll.is_red = false))]
          by_cases hrlred : rl.is_red = true
          · -- rotation branch of move_red_left
            have hclr : clr = .Red := by
              cases clr with
              | Red => rfl
              | Black => rw [not_is_red_of_LLRB_black hrl] at hrlred; cases hrlred
            subst hclr
            obtain ⟨rlv, a, b, rfl, ha, hb⟩ := LLRB_red_shape hrl
            rw [move_red_left_rot]
            simp only [setLeft, left_node]
            have hin : LLRB (RedBlackTree.node v .Black
                (RedBlackTree.node lv .Black ll lr).toggleRoot a) .Black (m2 + 1) :=
              LLRB.black v (LLRB.red lv hll hlr2) ha
            have hszT : (RedBlackTree.node v .Black
                (RedBlackTree.node lv .Black ll lr).toggleRoot a).size ≤ k := by
              simp only [size, size_toggleRoot] at hsz ⊢
              omega
            obtain ⟨hol, hoB⟩ :=
              (ih _ (m2 + 1) hszT).2 hin
                (by simp [left_node, is_red, toggleRoot, Colour.toggle])
            rw [toList_node, toList_toggleRoot, tail_append_left hlne] at hol
            rw [fix_up_id (not_is_red_of_LLRB_black hoB) (by simp [is_red])]
            refine ⟨?_, fun hc => absurd hc (by simp), fun _ =>
              Or.inr (LLRB.red rlv hoB (LLRB.black rv hb hrr))⟩
            conv_rhs => rw [toList_node, tail_append_left hlne]
            conv_lhs => rw [toList_node, hol]
            simp [toList_node, List.append_assoc]
          · -- colour-flip branch of move_red_left
            have hclr : clr = .Black := LLRB_black_of_not_red hrl (by simpa using hrlred)
            subst hclr
            rw [move_red_left_no_rot (by simpa using hrlred)]
            simp only [setLeft, left_node, Colour.toggle_red, Colour.toggle_black]
            have hinR : LLRB (RedBlackTree.node lv .Black ll lr).toggleRoot .Red m2 :=
              LLRB.red lv hll hlr2
            have hszT : (RedBlackTree.node lv .Black ll lr).toggleRoot.size ≤ k := by
              rw [size_toggleRoot]
              simp only [size] at hsz ⊢
              omega
            obtain ⟨hol, honil, hocol⟩ := (ih _ m2 hszT).1 hinR
            rw [toList_toggleRoot] at hol
            by_cases honl : (RedBlackTree.node lv .Black ll lr).toggleRoot.delete_min
                = RedBlackTree.nil
            · rw [honl] at hol ⊢
              rw [fix_up_right_red is_red_nil (not_is_red_of_LLRB_black hrr)]
              refine ⟨?_, fun hc => absurd hc (by simp), fun _ => Or.inl
                (LLRB.black rv (LLRB.red v ?_ hrl) hrr)⟩
              · conv_rhs => rw [toList_node, tail_append_left hlne]
                rw [← hol]
                simp [toList_node, toList_nil]
              · rw [honil honl]
                exact LLRB.nil
            · rcases hocol honl with hoB | hoR
              · rw [fix_up_right_red (not_is_red_of_LLRB_black hoB)
                  (not_is_red_of_LLRB_black hrr)]
                refine ⟨?_, fun hc => absurd hc (by simp), fun _ => Or.inl
                  (LLRB.black rv (LLRB.red v hoB hrl) hrr)⟩
                conv_rhs => rw [toList_node, tail_append_left hlne]
                rw [← hol]
                simp [toList_node, List.append_assoc]
              · obtain ⟨ov, oa, ob, hoeq, hoa, hob⟩ := LLRB_red_shape hoR
                rw [hoeq] at hol ⊢
                rw [fix_up_both_red (not_is_red_of_LLRB_black hoa)
                  (is_red_node_red rv rl rr)]
                simp only [Colour.toggle_black, toggleRoot_node, Colour.toggle_red]
                refine ⟨?_, fun hc => absurd hc (by simp), fun _ => Or.inr
                  (LLRB.red v (LLRB.black ov hoa hob) (LLRB.black rv hrl hrr))⟩
                rw [toList_node] at hol
                conv_rhs => rw [toList_node, tail_append_left hlne]
                rw [← hol]
                simp [toList_node, List.append_assoc]
    · -- black-rooted input with red left child
      intro hB hlr
      cases hB with
      | nil => simp [left, is_red] at hlr
      | black v hl hr =>
        rename_i l r cl m
        simp only [left_node] at hlr
        have hcl : cl = .Red := by
          cases cl with
          | Red => rfl
          | Black => rw [not_is_red_of_LLRB_black hl] at hlr; cases hlr
        subst hcl
        obtain ⟨lv, la, lb, rfl, hla, hlb⟩ := LLRB_red_shape hl
        rw [delete_min_eq_no_mrl v .Black (RedBlackTree.node lv .Red la lb) r
          (by simp) (Or.inl (by simp [is_red]))]
        have hszl : (RedBlackTree.node lv .Red la lb).size ≤ k := by
          simp only [size] at hsz ⊢
          omega
        obtain ⟨hol, honil, hocol⟩ :=
          (ih (RedBlackTree.node lv .Red la lb) m hszl).1 (LLRB.red lv hla hlb)
        have hlne : (RedBlackTree.node lv .Red la lb).toList ≠ [] := by
          rw [ne_eq, toList_eq_nil_iff]
          simp
        by_cases honl : (RedBlackTree.node lv .Red la lb).delete_min = RedBlackTree.nil
        · rw [honl] at hol ⊢
          rw [fix_up_id is_red_nil (not_is_red_of_LLRB_black hr)]
          have hnil : LLRB RedBlackTree.nil .Black m := by
            rw [honil honl]
            exact LLRB.nil
          refine ⟨?_, LLRB.black v hnil hr⟩
          conv_rhs => rw [toList_node, tail_append_left hlne]
          rw [← hol]
          simp [toList_node, toList_nil]
        · rcases hocol honl with hoB | hoR
          · rw [fix_up_id (not_is_red_of_LLRB_black hoB) (not_is_red_of_LLRB_black hr)]
            refine ⟨?_, LLRB.black v hoB hr⟩
            conv_rhs => rw [toList_node, tail_append_left hlne]
            rw [← hol]
            exact toList_node v .Black _ r
          · obtain ⟨ov, oa, ob, hoeq, hoa, hob⟩ := LLRB_red_shape hoR
            rw [hoeq] at hol ⊢
            rw [fix_up_left_red (not_is_red_of_LLRB_black hoa)
              (not_is_red_of_LLRB_black hr)]
            refine ⟨?_, ?_⟩
            · rw [toList_node] at hol
              conv_rhs => rw [toList_node, tail_append_left hlne]
              rw [← hol]
              simp [toList_node, List.append_assoc]
            · rw [← hoeq]
              exact LLRB.black v hoR hr

end RedBlackTree

namespace RedBlackTree

theorem value_node (v : Int) (c : Colour) (l r : RedBlackTree) :
    (RedBlackTree.node v c l r).value = v := rfl

/-- Full unfolding of `_delete_rec` on a node, with the local bindings
`t1` and `t2` of the source inlined. -/
theorem delete_rec_node (x v : Int) (c : Colour) (l r : RedBlackTree) :
    (RedBlackTree.node v c l r).delete_rec x
      = if x < v then
          (if l = .nil then RedBlackTree.node v c l r
           else ((if (!(RedBlackTree.node v c l r).left.is_red &&
                    !(RedBlackTree.node v c l r).left.left.is_red) = true
                  then (RedBlackTree.node v c l r).move_red_left
                  else RedBlackTree.node v c l r).setLeft
                  ((if (!(RedBlackTree.node v c l r).left.is_red &&
                    !(RedBlackTree.node v c l r).left.left.is_red) = true
                  then (RedBlackTree.node v c l r).move_red_left
                  else RedBlackTree.node v c l r).left.delete_rec x)).fix_up)
        else
          (if (x = (if (RedBlackTree.node v c l r).left.is_red = true
                    then (RedBlackTree.node v c l r).rotate_right
                    else RedBlackTree.node v c l r).value &&
               (if (RedBlackTree.node v c l r).left.is_red = true
                    then (RedBlackTree.node v c l r).rotate_right
                    else RedBlackTree.node v c l r).right = .nil)
           then .nil
           else if (if (RedBlackTree.node v c l r).left.is_red = true
                    then (RedBlackTree.node v c l r).rotate_right
                    else RedBlackTree.node v c l r).right = .nil
           then (if (RedBlackTree.node v c l r).left.is_red = true
                    then (RedBlackTree.node v c l r).rotate_right
                    else RedBlackTree.node v c l r)
           else
             if x = (if (!(if (RedBlackTree.node v c l r).left.is_red = true
                          then (RedBlackTree.node v c l r).rotate_right
                          else RedBlackTree.node v c l r).right.is_red &&
                        !(if (RedBlackTree.node v c l r).left.is_red = true
                          then (RedBlackTree.node v c l r).rotate_right
                          else RedBlackTree.node v c l r).right.left.is_red) = true
                     then (if (RedBlackTree.node v c l r).left.is_red = true
                          then (RedBlackTree.node v c l r).rotate_right
                          else RedBlackTree.node v c l r).move_red_right
                     else (if (RedBlackTree.node v c l r).left.is_red = true
                          then (RedBlackTree.node v c l r).rotate_right
                          else RedBlackTree.node v c l r)).value
             then (((if (!(if (RedBlackTree.node v c l r).left.is_red = true
                          then (RedBlackTree.node v c l r).rotate_right
                          else RedBlackTree.node v c l r).right.is_red &&
                        !(if (RedBlackTree.node v c l r).left.is_red = true
                          then (RedBlackTree.node v c l r).rotate_right
                          else RedBlackTree.node v c l r).right.left.is_red) = true
                     then (if (RedBlackTree.node v c l r).left.is_red = true
                          then (RedBlackTree.node v c l r).rotate_right
                          else RedBlackTree.node v c l r).move_red_right
                     else (if (RedBlackTree.node v c l r).left.is_red = true
                          then (RedBlackTree.node v c l r).rotate_right
                          else RedBlackTree.node v c l r)).setValue
                    (if (!(if (RedBlackTree.node v c l r).left.is_red = true
                          then (RedBlackTree.node v c l r).rotate_right
                          else RedBlackTree.node v c l r).right.is_red &&
                        !(if (RedBlackTree.node v c l r).left.is_red = true
                          then (RedBlackTree.node v c l r).rotate_right
                          else RedBlackTree.node v c l r).right.left.is_red) = true
                     then (if (RedBlackTree.node v c l r).left.is_red = true
                          then (RedBlackTree.node v c l r).rotate_right
                          else RedBlackTree.node v c l r).move_red_right
                     else (if (RedBlackTree.node v c l r).left.is_red = true
                          then (RedBlackTree.node v c l r).rotate_right
                          else RedBlackTree.node v c l r)).right.min_node.value).setRight
                    (if (!(if (RedBlackTree.node v c l r).left.is_red = true
                          then (RedBlackTree.node v c l r).rotate_right
                          else RedBlackTree.node v c l r).right.is_red &&
                        !(if (RedBlackTree.node v c l r).left.is_red = true
                          then (RedBlackTree.node v c l r).rotate_right
                          else RedBlackTree.node v c l r).right.left.is_red) = true
                     then (if (RedBlackTree.node v c l r).left.is_red = true
                          then (RedBlackTree.node v c l r).rotate_right
                          else RedBlackTree.node v c l r).move_red_right
                     else (if (RedBlackTree.node v c l r).left.is_red = true
                          then (RedBlackTree.node v c l r).rotate_right
                          else RedBlackTree.node v c l r)).right.delete_min).fix_up
             else ((if (!(if (RedBlackTree.node v c l r).left.is_red = true
                          then (RedBlackTree.node v c l r).rotate_right
                          else RedBlackTree.node v c l r).right.is_red &&
                        !(if (RedBlackTree.node v c l r).left.is_red = true
                          then (RedBlackTree.node v c l r).rotate_right
                          else RedBlackTree.node v c l r).right.left.is_red) = true
                     then (if (RedBlackTree.node v c l r).left.is_red = true
                          then (RedBlackTree.node v c l r).rotate_right
                          else RedBlackTree.node v c l r).move_red_right
                     else (if (RedBlackTree.node v c l r).left.is_red = true
                          then (RedBlackTree.node v c l r).rotate_right
                          else RedBlackTree.node v c l r)).setRight
                    ((if (!(if (RedBlackTree.node v c l r).left.is_red = true
                          then (RedBlackTree.node v c l r).rotate_right
                          else RedBlackTree.node v c l r).right.is_red &&
                        !(if (RedBlackTree.node v c l r).left.is_red = true
                          then (RedBlackTree.node v c l r).rotate_right
                          else RedBlackTree.node v c l r).right.left.is_red) = true
                     then (if (RedBlackTree.node v c l r).left.is_red = true
                          then (RedBlackTree.node v c l r).rotate_right
                          else RedBlackTree.node v c l r).move_red_right
                     else (if (RedBlackTree.node v c l r).left.is_red = true
                          then (RedBlackTree.node v c l r).rotate_right
                          else RedBlackTree.node v c l r)).right.delete_rec x)).fix_up) := by
  rw [delete_rec]

end RedBlackTree

namespace RedBlackTree

/-- `x < value`, no left child: the not-found early return. -/
theorem delete_rec_lt_nil {x v : Int} {c : Colour} {r : RedBlackTree}
    (hx : x < v) :
    (RedBlackTree.node v c .nil r).delete_rec x = RedBlackTree.node v c .nil r := by
  rw [delete_rec_node, if_pos hx, if_pos rfl]

/-- `x < value` with a red left child or red left-left grandchild: descend
left without `_move_red_left`. -/
theorem delete_rec_lt_no_mrl {x v : Int} {c : Colour} {l r : RedBlackTree}
    (hx : x < v) (h1 : l ≠ .nil) (h : l.is_red = true ∨ l.left.is_red = true) :
    (RedBlackTree.node v c l r).delete_rec x
      = (RedBlackTree.node v c (l.delete_rec x) r).fix_up := by
  rw [delete_rec_node, if_pos hx, if_neg h1]
  have hc : ¬((!(RedBlackTree.node v c l r).left.is_red &&
      !(RedBlackTree.node v c l r).left.left.is_red) = true) := by
    rcases h with h | h <;> simp [left_node, h]
  rw [if_neg hc]
  rfl

/-- `x < value`, cold left child: `_move_red_left` then descend left. -/
theorem delete_rec_lt_cold {x v : Int} {c : Colour} {l r : RedBlackTree}
    (hx : x < v) (h1 : l ≠ .nil) (h2 : l.is_red = false)
    (h3 : l.left.is_red = false) :
    (RedBlackTree.node v c l r).delete_rec x
      = ((RedBlackTree.node v c l r).move_red_left.setLeft
          ((RedBlackTree.node v c l r).move_red_left.left.delete_rec x)).fix_up := by
  rw [delete_rec_node, if_pos hx, if_neg h1]
  have hc : ((!(RedBlackTree.node v c l r).left.is_red &&
      !(RedBlackTree.node v c l r).left.left.is_red) = true) := by
    simp [left_node, h2, h3]
  rw [if_pos hc]

/-- Key found at a node with no right child: remove the node. -/
theorem delete_rec_ge_nil_hit {x v : Int} {c : Colour} {l : RedBlackTree}
    (hx : ¬ x < v) (hl : l.is_red = false) (hxv : x = v) :
    (RedBlackTree.node v c l .nil).delete_rec x = .nil := by
  rw [delete_rec_node, if_neg hx]
  have hcl : ¬((RedBlackTree.node v c l .nil).left.is_red = true) := by
    simp [left_node, hl]
  rw [if_neg hcl]
  subst hxv
  simp [value_node, right_node]

/-- Key not found at a node with no right child: the not-found early
return. -/
theorem delete_rec_ge_nil_miss {x v : Int} {c : Colour} {l : RedBlackTree}
    (hx : ¬ x < v) (hl : l.is_red = false) (hxv : x ≠ v) :
    (RedBlackTree.node v c l .nil).delete_rec x = RedBlackTree.node v c l .nil := by
  rw [delete_rec_node, if_neg hx]
  have hcl : ¬((RedBlackTree.node v c l .nil).left.is_red = true) := by
    simp [left_node, hl]
  rw [if_neg hcl]
  have hc1 : ¬(x = (RedBlackTree.node v c l .nil).value &&
      (RedBlackTree.node v c l .nil).right = RedBlackTree.nil) = true := by
    simp [value_node, hxv]
  rw [if_neg hc1, if_pos (show (RedBlackTree.node v c l .nil).right
    = RedBlackTree.nil from rfl)]

/-- Key found at the root, left not red, right child hot: splice in the
successor. -/
theorem delete_rec_ge_hot_hit {x v : Int} {c : Colour} {l r : RedBlackTree}
    (hx : ¬ x < v) (hl : l.is_red = false) (hrn : r ≠ .nil)
    (hhot : r.is_red = true ∨ r.left.is_red = true) (hxv : x = v) :
    (RedBlackTree.node v c l r).delete_rec x
      = (RedBlackTree.node r.min_node.value c l r.delete_min).fix_up := by
  rw [delete_rec_node, if_neg hx]
  have hcl : ¬((RedBlackTree.node v c l r).left.is_red = true) := by
    simp [left_node, hl]
  rw [if_neg hcl]
  have hc1 : ¬(x = (RedBlackTree.node v c l r).value &&
      (RedBlackTree.node v c l r).right = RedBlackTree.nil) = true := by
    simp [right_node, hrn]
  rw [if_neg hc1, if_neg (show ¬(RedBlackTree.node v c l r).right
    = RedBlackTree.nil by simpa [right_node] using hrn)]
  have hc2 : ¬((!(RedBlackTree.node v c l r).right.is_red &&
      !(RedBlackTree.node v c l r).right.left.is_red) = true) := by
    rcases hhot with h | h <;> simp [right_node, h]
  rw [if_neg hc2, if_pos (show x = (RedBlackTree.node v c l r).value from hxv)]
  rfl

/-- Key to the right, left not red, right child hot: descend right. -/
theorem delete_rec_ge_hot_miss {x v : Int} {c : Colour} {l r : RedBlackTree}
    (hx : ¬ x < v) (hl : l.is_red = false) (hrn : r ≠ .nil)
    (hhot : r.is_red = true ∨ r.left.is_red = true) (hxv : x ≠ v) :
    (RedBlackTree.node v c l r).delete_rec x
      = (RedBlackTree.node v c l (r.delete_rec x)).fix_up := by
  rw [delete_rec_node, if_neg hx]
  have hcl : ¬((RedBlackTree.node v c l r).left.is_red = true) := by
    simp [left_node, hl]
  rw [if_neg hcl]
  have hc1 : ¬(x = (RedBlackTree.node v c l r).value &&
      (RedBlackTree.node v c l r).right = RedBlackTree.nil) = true := by
    simp [right_node, hrn]
  rw [if_neg hc1, if_neg (show ¬(RedBlackTree.node v c l r).right
    = RedBlackTree.nil by simpa [right_node] using hrn)]
  have hc2 : ¬((!(RedBlackTree.node v c l r).right.is_red &&
      !(RedBlackTree.node v c l r).right.left.is_red) = true) := by
    rcases hhot with h | h <;> simp [right_node, h]
  rw [if_neg hc2, if_neg (show ¬ x = (RedBlackTree.node v c l r).value from hxv)]
  rfl

/-- Left not red, right child cold: `_move_red_right`, then the key test
against the (possibly new) root value — the found case. -/
theorem delete_rec_ge_cold_hit {x v : Int} {c : Colour} {l r : RedBlackTree}
    (hx : ¬ x < v) (hl : l.is_red = false) (hrn : r ≠ .nil)
    (h2 : r.is_red = false) (h3 : r.left.is_red = false)
    (hxm : x = (RedBlackTree.node v c l r).move_red_right.value) :
    (RedBlackTree.node v c l r).delete_rec x
      = (((RedBlackTree.node v c l r).move_red_right.setValue
          (RedBlackTree.node v c l r).move_red_right.right.min_node.value).setRight
          (RedBlackTree.node v c l r).move_red_right.right.delete_min).fix_up := by
  rw [delete_rec_node, if_neg hx]
  have hcl : ¬((RedBlackTree.node v c l r).left.is_red = true) := by
    simp [left_node, hl]
  rw [if_neg hcl]
  have hc1 : ¬(x = (RedBlackTree.node v c l r).value &&
      (RedBlackTree.node v c l r).right = RedBlackTree.nil) = true := by
    simp [right_node, hrn]
  rw [if_neg hc1, if_neg (show ¬(RedBlackTree.node v c l r).right
    = RedBlackTree.nil by simpa [right_node] using hrn)]
  have hc2 : ((!(RedBlackTree.node v c l r).right.is_red &&
      !(RedBlackTree.node v c l r).right.left.is_red) = true) := by
    simp [right_node, h2, h3]
  rw [if_pos hc2, if_pos hxm]

/-- Left not red, right child cold: `_move_red_right`, key test fails —
descend right. -/
theorem delete_rec_ge_cold_miss {x v : Int} {c : Colour} {l r : RedBlackTree}
    (hx : ¬ x < v) (hl : l.is_red = false) (hrn : r ≠ .nil)
    (h2 : r.is_red = false) (h3 : r.left.is_red = false)
    (hxm : ¬ x = (RedBlackTree.node v c l r).move_red_right.value) :
    (RedBlackTree.node v c l r).delete_rec x
      = ((RedBlackTree.node v c l r).move_red_right.setRight
          ((RedBlackTree.node v c l r).move_red_right.right.delete_rec x)).fix_up := by
  rw [delete_rec_node, if_neg hx]
  have hcl : ¬((RedBlackTree.node v c l r).left.is_red = true) := by
    simp [left_node, hl]
  rw [if_neg hcl]
  have hc1 : ¬(x = (RedBlackTree.node v c l r).value &&
      (RedBlackTree.node v c l r).right = RedBlackTree.nil) = true := by
    simp [right_node, hrn]
  rw [if_neg hc1, if_neg (show ¬(RedBlackTree.node v c l r).right
    = RedBlackTree.nil by simpa [right_node] using hrn)]
  have hc2 : ((!(RedBlackTree.node v c l r).right.is_red &&
      !(RedBlackTree.node v c l r).right.left.is_red) = true) := by
    simp [right_node, h2, h3]
  rw [if_pos hc2, if_neg hxm]

/-- Red left child: rotate right first; the rotated tree always has a red,
non-nil right child, so the search continues against the lifted value —
the found case. -/
theorem delete_rec_ge_red_hit {x v lv : Int} {c : Colour}
    {la lb r : RedBlackTree} (hx : ¬ x < v) (hxl : x = lv) :
    (RedBlackTree.node v c (.node lv .Red la lb) r).delete_rec x
      = (RedBlackTree.node (RedBlackTree.node v .Red lb r).min_node.value c la
          ((RedBlackTree.node v .Red lb r).delete_min)).fix_up := by
  rw [delete_rec_node, if_neg hx]
  rw [if_pos (show (RedBlackTree.node v c (.node lv .Red la lb) r).left.is_red
    = true from rfl)]
  rw [rotate_right_node]
  have hc1 : ¬(x = (RedBlackTree.node lv c la (.node v .Red lb r)).value &&
      (RedBlackTree.node lv c la (.node v .Red lb r)).right
        = RedBlackTree.nil) = true := by
    simp [right_node]
  rw [if_neg hc1, if_neg (show ¬(RedBlackTree.node lv c la
    (.node v .Red lb r)).right = RedBlackTree.nil by simp [right_node])]
  have hc2 : ¬((!(RedBlackTree.node lv c la (.node v .Red lb r)).right.is_red &&
      !(RedBlackTree.node lv c la (.node v .Red lb r)).right.left.is_red)
        = true) := by
    simp [right_node, is_red]
  rw [if_neg hc2, if_pos (show x = (RedBlackTree.node lv c la
    (.node v .Red lb r)).value from hxl)]
  rfl

/-- Red left child: rotate right first, key test fails — descend into the
red right child of the rotated tree. -/
theorem delete_rec_ge_red_miss {x v lv : Int} {c : Colour}
    {la lb r : RedBlackTree} (hx : ¬ x < v) (hxl : x ≠ lv) :
    (RedBlackTree.node v c (.node lv .Red la lb) r).delete_rec x
      = (RedBlackTree.node lv c la
          ((RedBlackTree.node v .Red lb r).delete_rec x)).fix_up := by
  rw [delete_rec_node, if_neg hx]
  rw [if_pos (show (RedBlackTree.node v c (.node lv .Red la lb) r).left.is_red
    = true from rfl)]
  rw [rotate_right_node]
  have hc1 : ¬(x = (RedBlackTree.node lv c la (.node v .Red lb r)).value &&
      (RedBlackTree.node lv c la (.node v .Red lb r)).right
        = RedBlackTree.nil) = true := by
    simp [right_node]
  rw [if_neg hc1, if_neg (show ¬(RedBlackTree.node lv c la
    (.node v .Red lb r)).right = RedBlackTree.nil by simp [right_node])]
  have hc2 : ¬((!(RedBlackTree.node lv c la (.node v .Red lb r)).right.is_red &&
      !(RedBlackTree.node lv c la (.node v .Red lb r)).right.left.is_red)
        = true) := by
    simp [right_node, is_red]
  rw [if_neg hc2, if_neg (show ¬ x = (RedBlackTree.node lv c la
    (.node v .Red lb r)).value from hxl)]
  rfl

end RedBlackTree

namespace RedBlackTree

theorem any_of_parts {o : RedBlackTree} {m : Nat}
    (h1 : o = .nil → m = 1)
    (h2 : o ≠ .nil → LLRB o .Black m ∨ LLRB o .Red m) :
    LLRB o .Black m ∨ LLRB o .Red m := by
  by_cases ho : o = .nil
  · subst ho
    rw [h1 rfl]
    exact Or.inl LLRB.nil
  · exact h2 ho

/-- `_fix_up` after a red root got a black replacement child on either
side: nothing to repair. -/
theorem fix_up_red_BB {v : Int} {l o : RedBlackTree} {m : Nat}
    (hl : LLRB l .Black m) (ho : LLRB o .Black m) :
    LLRB (RedBlackTree.node v .Red l o).fix_up .Red m := by
  rw [fix_up_id (not_is_red_of_LLRB_black hl) (not_is_red_of_LLRB_black ho)]
  exact LLRB.red v hl ho

/-- `_fix_up` under a black root whose left replacement child may be red:
at worst a left-leaning red edge, which is legal. -/
theorem fix_up_black_any_left {v : Int} {o r : RedBlackTree} {m : Nat}
    (ho : LLRB o .Black m ∨ LLRB o .Red m) (hr : LLRB r .Black m) :
    LLRB (RedBlackTree.node v .Black o r).fix_up .Black (m + 1) := by
  rcases ho with hoB | hoR
  · rw [fix_up_id (not_is_red_of_LLRB_black hoB) (not_is_red_of_LLRB_black hr)]
    exact LLRB.black v hoB hr
  · obtain ⟨ov, oa, ob, rfl, hoa, hob⟩ := LLRB_red_shape hoR
    rw [fix_up_left_red (not_is_red_of_LLRB_black hoa) (not_is_red_of_LLRB_black hr)]
    exact LLRB.black v (LLRB.red ov hoa hob) hr

/-- `_fix_up` under a black root whose right replacement child may be red:
a red right child is rotated left. -/
theorem fix_up_black_any_right {v : Int} {l o : RedBlackTree} {m : Nat}
    (hl : LLRB l .Black m) (ho : LLRB o .Black m ∨ LLRB o .Red m) :
    LLRB (RedBlackTree.node v .Black l o).fix_up .Black (m + 1) := by
  rcases ho with hoB | hoR
  · rw [fix_up_id (not_is_red_of_LLRB_black hl) (not_is_red_of_LLRB_black hoB)]
    exact LLRB.black v hl hoB
  · obtain ⟨ov, oa, ob, rfl, hoa, hob⟩ := LLRB_red_shape hoR
    rw [fix_up_right_red (not_is_red_of_LLRB_black hl) (not_is_red_of_LLRB_black hob)]
    exact LLRB.black ov (LLRB.red v hl hoa) hob

/-- `_fix_up` under a black root with a red right child installed by
`_move_red_left`: rotate left, or flip if the left child came back red. -/
theorem fix_up_black_rightred {v rv : Int} {o rl rr : RedBlackTree} {m : Nat}
    (ho : LLRB o .Black m ∨ LLRB o .Red m)
    (hrl : LLRB rl .Black m) (hrr : LLRB rr .Black m) :
    LLRB (RedBlackTree.node v .Black o (.node rv .Red rl rr)).fix_up .Black (m + 1) ∨
    LLRB (RedBlackTree.node v .Black o (.node rv .Red rl rr)).fix_up .Red (m + 1) := by
  rcases ho with hoB | hoR
  · rw [fix_up_right_red (not_is_red_of_LLRB_black hoB) (not_is_red_of_LLRB_black hrr)]
    exact Or.inl (LLRB.black rv (LLRB.red v hoB hrl) hrr)
  · obtain ⟨ov, oa, ob, rfl, hoa, hob⟩ := LLRB_red_shape hoR
    rw [fix_up_both_red (not_is_red_of_LLRB_black hoa) (is_red_node_red rv rl rr)]
    rw [toggleRoot_node]
    exact Or.inr (LLRB.red v (LLRB.black ov hoa hob) (LLRB.black rv hrl hrr))

/-- `_fix_up` under a red root with a red right child installed by
`_move_red_left`: rotate left (leaving a transient red-red edge) or flip. -/
theorem fix_up_red_rightred {v rv : Int} {o rl rr : RedBlackTree} {m : Nat}
    (ho : LLRB o .Black m ∨ LLRB o .Red m)
    (hrl : LLRB rl .Black m) (hrr : LLRB rr .Black m) :
    LLRB (RedBlackTree.node v .Red o (.node rv .Red rl rr)).fix_up .Black (m + 1 + 1) ∨
    AlmostL ((RedBlackTree.node v .Red o (.node rv .Red rl rr)).fix_up) m := by
  rcases ho with hoB | hoR
  · rw [fix_up_right_red (not_is_red_of_LLRB_black hoB) (not_is_red_of_LLRB_black hrr)]
    exact Or.inr ⟨rv, _, _, rfl, LLRB.red v hoB hrl, hrr⟩
  · obtain ⟨ov, oa, ob, rfl, hoa, hob⟩ := LLRB_red_shape hoR
    rw [fix_up_both_red (not_is_red_of_LLRB_black hoa) (is_red_node_red rv rl rr)]
    rw [toggleRoot_node]
    exact Or.inl (LLRB.black v (LLRB.black ov hoa hob) (LLRB.black rv hrl hrr))

/-- `_fix_up` under a black root with a red left child installed by
`_move_red_right`, the replacement right child possibly red. -/
theorem fix_up_black_left_red {v lv : Int} {ll lr o : RedBlackTree} {m : Nat}
    (hll : LLRB ll .Black m) (hlr : LLRB lr .Black m)
    (ho : LLRB o .Black m ∨ LLRB o .Red m) :
    LLRB (RedBlackTree.node v .Black (.node lv .Red ll lr) o).fix_up .Black (m + 1) ∨
    LLRB (RedBlackTree.node v .Black (.node lv .Red ll lr) o).fix_up .Red (m + 1) := by
  rcases ho with hoB | hoR
  · rw [fix_up_left_red (not_is_red_of_LLRB_black hll) (not_is_red_of_LLRB_black hoB)]
    exact Or.inl (LLRB.black v (LLRB.red lv hll hlr) hoB)
  · rw [fix_up_both_red (not_is_red_of_LLRB_black hll) (is_red_of_LLRB_red hoR)]
    rw [Colour.toggle_black]
    exact Or.inr (LLRB.red v (LLRB.black lv hll hlr) (LLRB_toggle_red hoR))

/-- `_fix_up` under a red root with a red left child installed by
`_move_red_right`: either the red-red edge survives (an `AlmostL` state for
the caller) or a flip restores validity one level up. -/
theorem fix_up_red_left_red {v lv : Int} {ll lr o : RedBlackTree} {m : Nat}
    (hll : LLRB ll .Black m) (hlr : LLRB lr .Black m)
    (ho : LLRB o .Black m ∨ LLRB o .Red m) :
    LLRB (RedBlackTree.node v .Red (.node lv .Red ll lr) o).fix_up .Black (m + 1 + 1) ∨
    AlmostL ((RedBlackTree.node v .Red (.node lv .Red ll lr) o).fix_up) m := by
  rcases ho with hoB | hoR
  · rw [fix_up_left_red (not_is_red_of_LLRB_black hll) (not_is_red_of_LLRB_black hoB)]
    exact Or.inr ⟨v, _, _, rfl, LLRB.red lv hll hlr, hoB⟩
  · rw [fix_up_both_red (not_is_red_of_LLRB_black hll) (is_red_of_LLRB_red hoR)]
    rw [Colour.toggle_red]
    exact Or.inl (LLRB.black v (LLRB.black lv hll hlr) (LLRB_toggle_red hoR))

/-- Decomposing sortedness of a node into facts about its parts. -/
theorem sorted_parts {v : Int} {c : Colour} {l r : RedBlackTree}
    (hs : List.Pairwise (fun a b => a < b) (RedBlackTree.node v c l r).toList) :
    List.Pairwise (fun a b => a < b) l.toList ∧
    List.Pairwise (fun a b => a < b) r.toList ∧
    (∀ a ∈ l.toList, a < v) ∧ (∀ b ∈ r.toList, v < b) := by
  rw [toList_node, List.pairwise_append] at hs
  obtain ⟨h1, h2, h3⟩ := hs
  rw [List.pairwise_cons] at h2
  exact ⟨h1, h2.2, fun a ha => h3 a ha v (by simp), h2.1⟩

theorem not_mem_of_forall_lt {x : Int} {A : List Int}
    (h : ∀ a ∈ A, a < x) : x ∉ A :=
  fun hm => absurd (h x hm) (lt_irrefl x)

theorem not_mem_of_forall_gt {x : Int} {A : List Int}
    (h : ∀ a ∈ A, x < a) : x ∉ A :=
  fun hm => absurd (h x hm) (lt_irrefl x)

end RedBlackTree

namespace RedBlackTree

theorem erase_append_not_mem {A B : List Int} {x : Int} (h : x ∉ A) :
    (A ++ B).erase x = A ++ B.erase x :=
  List.erase_append_right B h

theorem erase_node_lt {L R : List Int} {x v : Int} (hx : x < v)
    (hR : ∀ b ∈ R, v < b) :
    (L ++ v :: R).erase x = L.erase x ++ v :: R := by
  apply erase_append_of_forall_lt
  intro y hy
  rcases List.mem_cons.mp hy with rfl | hy
  · exact hx
  · exact lt_trans hx (hR y hy)

theorem erase_node_eq {L R : List Int} {v : Int} (hL : ∀ a ∈ L, a < v) :
    (L ++ v :: R).erase v = L ++ R := by
  rw [erase_append_not_mem (not_mem_of_forall_lt hL), List.erase_cons_head]

theorem erase_node_gt {L R : List Int} {x v : Int} (hx : v < x)
    (hL : ∀ a ∈ L, a < v) :
    (L ++ v :: R).erase x = L ++ v :: R.erase x := by
  rw [erase_append_not_mem (not_mem_of_forall_lt
    (fun a ha => lt_trans (hL a ha) hx)), erase_cons_of_ne (ne_of_lt hx)]

end RedBlackTree

namespace RedBlackTree

/-- Invariant of `_delete_rec` on the four tree classes it is invoked on:
a red-rooted valid subtree (result possibly empty, black height kept), a
black-rooted valid subtree with a red left child (result black-rooted,
black height kept), the transient black-root/red-right-child state
`_move_red_right` creates (entered only with the key not less than the
root value), and a black-rooted valid subtree with a non-red left child
(the public entry shape; the result may be an `AlmostL` state two levels
lower, repaired by the caller painting the root black). In all classes the
inorder value sequence of the result is the input's with the key erased. -/
theorem delete_rec_spec : ∀ (k : Nat) (t : RedBlackTree) (x : Int) (n : Nat),
    t.size ≤ k → List.Pairwise (fun a b => a < b) t.toList →
    ((LLRB t .Red n →
        (t.delete_rec x).toList = t.toList.erase x ∧
        (t.delete_rec x = .nil → n = 1) ∧
        (t.delete_rec x ≠ .nil →
          LLRB (t.delete_rec x) .Black n ∨ LLRB (t.delete_rec x) .Red n)) ∧
     (LLRB t .Black n → t.left.is_red = true →
        (t.delete_rec x).toList = t.toList.erase x ∧
        LLRB (t.delete_rec x) .Black n) ∧
     (RightRed t n → ¬ x < t.value →
        (t.delete_rec x).toList = t.toList.erase x ∧
        LLRB (t.delete_rec x) .Black n) ∧
     (LLRB t .Black n → t.left.is_red = false →
        (t.delete_rec x).toList = t.toList.erase x ∧
        (t.delete_rec x ≠ .nil →
          LLRB (t.delete_rec x) .Black n ∨
          AlmostL (t.delete_rec x) (n - 2)))) := by
  intro k
  induction k with
  | zero =>
    intro t x n hsz hs
    have ht : t = .nil := by
      cases t with
      | nil => rfl
      | node v c l r => simp [size] at hsz
    subst ht
    refine ⟨?_, ?_, ?_, ?_⟩
    · intro hR
      cases hR
    · intro hB hlr
      simp [left, is_red] at hlr
    · intro hRR _
      obtain ⟨w, L, R, m, heq, _, _, _⟩ := hRR
      exact absurd heq (by simp)
    · intro hB _
      have h0 : RedBlackTree.nil.delete_rec x = RedBlackTree.nil := by
        rw [delete_rec]
      rw [h0]
      exact ⟨rfl, fun hc => absurd rfl hc⟩
  | succ k ih =>
    intro t x n hsz hs
    cases t with
    | nil =>
      refine ⟨?_, ?_, ?_, ?_⟩
      · intro hR
        cases hR
      · intro hB hlr
        simp [left, is_red] at hlr
      · intro hRR _
        obtain ⟨w, L, R, m, heq, _, _, _⟩ := hRR
        exact absurd heq (by simp)
      · intro hB _
        have h0 : RedBlackTree.nil.delete_rec x = RedBlackTree.nil := by
          rw [delete_rec]
        rw [h0]
        exact ⟨rfl, fun hc => absurd rfl hc⟩
    | node v c l r =>
      obtain ⟨hsl, hsr, hvl, hvr⟩ := sorted_parts hs
      refine ⟨?_, ?_, ?_, ?_⟩
      · -- D1: red root
        intro hR
        cases hR with
        | red w hl hr =>
          by_cases hxv : x < v
          · -- descend left
            by_cases hlnil : l = RedBlackTree.nil
            · subst hlnil
              rw [delete_rec_lt_nil hxv]
              have hnm : x ∉ (RedBlackTree.node v .Red RedBlackTree.nil r).toList := by
                rw [toList_node]
                intro hm
                rcases List.mem_append.mp hm with h | h
                · simp [toList_nil] at h
                · rcases List.mem_cons.mp h with rfl | h
                  · exact absurd hxv (lt_irrefl x)
                  · exact absurd (lt_trans hxv (hvr x h)) (lt_irrefl x)
              refine ⟨by rw [List.erase_of_not_mem hnm], fun hc => absurd hc (by simp),
                fun _ => Or.inr (LLRB.red v hl hr)⟩
            · obtain ⟨lv, ll, lr, cll, j, rfl, hll, hlr2, hjn⟩ := LLRB_black_shape hl hlnil
              by_cases hllred : ll.is_red = true
              · -- hot left child: no move_red_left
                rw [delete_rec_lt_no_mrl hxv (by simp)
                  (Or.inr (by simpa [left_node] using hllred))]
                have hszl : (RedBlackTree.node lv .Black ll lr).size ≤ k := by
                  simp only [size] at hsz ⊢
                  omega
                obtain ⟨hol, hoB⟩ :=
                  (ih (RedBlackTree.node lv .Black ll lr) x n hszl hsl).2.1 hl
                    (by simpa [left_node] using hllred)
                refine ⟨?_, fun hc => absurd hc (fix_up_ne_nil (by simp)),
                  fun _ => Or.inr (fix_up_red_BB hoB hr)⟩
                conv_rhs => rw [toList_node, erase_node_lt hxv hvr]
                rw [toList_fix_up, toList_node, hol]
              · -- cold left child: move_red_left
                have hcll : cll = .Black :=
                  LLRB_black_of_not_red hll (by simpa using hllred)
                subst hcll
                have hrnn : r ≠ .nil := by
                  intro hc
                  subst hc
                  cases hr
                  have := LLRB_pos hll
                  omega
                obtain ⟨rv, rl, rr, clr, j2, rfl, hrl, hrr, hj2⟩ :=
                  LLRB_black_shape hr hrnn
                have hjj : j2 = j := by omega
                subst hjj
                subst hjn
                rw [delete_rec_lt_cold hxv (by simp) (by simp [is_red])
                  (by simpa [left_node] using (by simpa using hllred : ll.is_red = false))]
                by_cases hrlred : rl.is_red = true
                · -- rotation branch of move_red_left
                  have hclr : clr = .Red := by
                    cases clr with
                    | Red => rfl
                    | Black => rw [not_is_red_of_LLRB_black hrl] at hrlred; cases hrlred
                  subst hclr
                  obtain ⟨rlv, a, b, rfl, ha, hb⟩ := LLRB_red_shape hrl
                  rw [move_red_left_rot]
                  simp only [setLeft, left_node, toggleRoot_node, Colour.toggle_black]
                  have hsub : List.Sublist (RedBlackTree.node v .Black
                      (RedBlackTree.node lv .Red ll lr) a).toList
                      ((RedBlackTree.node v .Red (RedBlackTree.node lv .Black ll lr)
                          (RedBlackTree.node rv .Black
                            (RedBlackTree.node rlv .Red a b) rr)).toList) := by
                    simp only [toList_node]
                    exact List.Sublist.append_left (List.Sublist.cons₂ v
                      ((List.sublist_append_left _ _).trans
                        (List.sublist_append_left _ _))) _
                  have hsT := hs.sublist hsub
                  have hszT : (RedBlackTree.node v .Black
                      (RedBlackTree.node lv .Red ll lr) a).size ≤ k := by
                    simp only [size] at hsz ⊢
                    omega
                  have hin : LLRB (RedBlackTree.node v .Black
                      (RedBlackTree.node lv .Red ll lr) a) .Black (j2 + 1) :=
                    LLRB.black v (LLRB.red lv hll hlr2) ha
                  obtain ⟨hol, hoB⟩ :=
                    (ih _ x (j2 + 1) hszT hsT).2.1 hin (by simp [left_node, is_red])
                  refine ⟨?_, fun hc => absurd hc (fix_up_ne_nil (by simp)),
                    fun _ => Or.inr (fix_up_red_BB hoB (LLRB.black rv hb hrr))⟩
                  have hva : ∀ y ∈ a.toList, v < y := by
                    intro y hy
                    refine hvr y ?_
                    rw [toList_node, toList_node]
                    exact List.mem_append.mpr (Or.inl (List.mem_append.mpr (Or.inl hy)))
                  rw [toList_node] at hol
                  rw [erase_node_lt hxv hva] at hol
                  conv_rhs => rw [toList_node, erase_node_lt hxv hvr]
                  rw [toList_fix_up, toList_node, hol]
                  simp [toList_node, List.append_assoc]
                · -- colour-flip branch of move_red_left
                  have hclr : clr = .Black :=
                    LLRB_black_of_not_red hrl (by simpa using hrlred)
                  subst hclr
                  rw [move_red_left_no_rot (by simpa using hrlred)]
                  simp only [setLeft, left_node, toggleRoot_node,
                    Colour.toggle_red, Colour.toggle_black]
                  have hsl' : List.Pairwise (fun a b => a < b)
                      (RedBlackTree.node lv .Red ll lr).toList := by
                    rw [toList_node]
                    rw [toList_node] at hsl
                    exact hsl
                  have hszl : (RedBlackTree.node lv .Red ll lr).size ≤ k := by
                    simp only [size] at hsz ⊢
                    omega
                  obtain ⟨hol, honil, hocol⟩ :=
                    (ih (RedBlackTree.node lv .Red ll lr) x j2 hszl hsl').1
                      (LLRB.red lv hll hlr2)
                  refine ⟨?_, fun hc => absurd hc (fix_up_ne_nil (by simp)),
                    fun _ => fix_up_black_rightred (any_of_parts honil hocol) hrl hrr⟩
                  conv_rhs => rw [toList_node, erase_node_lt hxv hvr]
                  rw [toList_fix_up, toList_node, hol]
                  simp [toList_node, List.append_assoc]
          · -- key not on the left
            have hlnr : l.is_red = false := not_is_red_of_LLRB_black hl
            by_cases hrnil : r = RedBlackTree.nil
            · subst hrnil
              cases hr
              have hlnil : l = .nil := LLRB_black_one hl
              subst hlnil
              by_cases hxveq : x = v
              · rw [delete_rec_ge_nil_hit hxv is_red_nil hxveq]
                subst hxveq
                refine ⟨?_, fun _ => rfl, fun hc => absurd rfl hc⟩
                rw [toList_node, toList_nil]
                simp
              · rw [delete_rec_ge_nil_miss hxv is_red_nil hxveq]
                have hnm : x ∉ (RedBlackTree.node v .Red RedBlackTree.nil
                    RedBlackTree.nil).toList := by
                  rw [toList_node]
                  simp only [toList_nil, List.nil_append]
                  simpa using hxveq
                refine ⟨by rw [List.erase_of_not_mem hnm],
                  fun hc => absurd hc (by simp),
                  fun _ => Or.inr (LLRB.red v LLRB.nil LLRB.nil)⟩
            · obtain ⟨rv, rl, rr, clr, j2, rfl, hrl, hrr, hj2⟩ :=
                LLRB_black_shape hr hrnil
              by_cases hrlred : rl.is_red = true
              · -- right child hot
                have hhot : (RedBlackTree.node rv .Black rl rr).is_red = true ∨
                    (RedBlackTree.node rv .Black rl rr).left.is_red = true :=
                  Or.inr (by simpa [left_node] using hrlred)
                by_cases hxveq : x = v
                · rw [delete_rec_ge_hot_hit hxv hlnr hrnil hhot hxveq]
                  obtain ⟨hol, hoB⟩ :=
                    (delete_min_spec (RedBlackTree.node rv .Black rl rr).size
                      _ n le_rfl).2 hr (by simpa [left_node] using hrlred)
                  refine ⟨?_, fun hc => absurd hc (fix_up_ne_nil (by simp)),
                    fun _ => Or.inr (fix_up_red_BB hl hoB)⟩
                  subst hxveq
                  conv_rhs => rw [toList_node, erase_node_eq hvl]
                  rw [toList_fix_up, toList_node, hol,
                    cons_head_tail (head_toList_min_node hrnil)]
                · have hvx : v < x :=
                    lt_of_le_of_ne (not_lt.mp hxv) (fun h => hxveq h.symm)
                  rw [delete_rec_ge_hot_miss hxv hlnr hrnil hhot hxveq]
                  have hszr : (RedBlackTree.node rv .Black rl rr).size ≤ k := by
                    simp only [size] at hsz ⊢
                    omega
                  obtain ⟨hol, hoB⟩ :=
                    (ih (RedBlackTree.node rv .Black rl rr) x n hszr hsr).2.1 hr
                      (by simpa [left_node] using hrlred)
                  refine ⟨?_, fun hc => absurd hc (fix_up_ne_nil (by simp)),
                    fun _ => Or.inr (fix_up_red_BB hl hoB)⟩
                  conv_rhs => rw [toList_node, erase_node_gt hvx hvl]
                  rw [toList_fix_up, toList_node, hol]
              · -- right child cold
                have hrlnr : rl.is_red = false := by simpa using hrlred
                have hclr : clr = .Black := LLRB_black_of_not_red hrl hrlnr
                subst hclr
                have hlnn : l ≠ .nil := by
                  intro hc
                  subst hc
                  cases hl
                  have := LLRB_pos hrl
                  omega
                obtain ⟨lv, ll, lr, cll, j, rfl, hll, hlr2, hjn⟩ :=
                  LLRB_black_shape hl hlnn
                have hjj : j2 = j := by omega
                subst hjj
                subst hjn
                have hnl : x ∉ (RedBlackTree.node lv .Black ll lr).toList :=
                  not_mem_of_forall_lt
                    (fun a ha => lt_of_lt_of_le (hvl a ha) (not_lt.mp hxv))
                by_cases hllred : ll.is_red = true
                · -- move_red_right rotates
                  have hcll : cll = .Red := by
                    cases cll with
                    | Red => rfl
                    | Black => rw [not_is_red_of_LLRB_black hll] at hllred; cases hllred
                  subst hcll
                  obtain ⟨llv, p, q, rfl, hp, hq⟩ := LLRB_red_shape hll
                  have hlvv : lv < v := hvl lv (by
                    rw [toList_node]
                    exact List.mem_append.mpr (Or.inr (List.mem_cons_self lv _)))
                  have hxm : ¬ x = (RedBlackTree.node v .Red
                      (RedBlackTree.node lv .Black
                        (RedBlackTree.node llv .Red p q) lr)
                      (RedBlackTree.node rv .Black rl rr)).move_red_right.value := by
                    rw [move_red_right_rot, value_node]
                    intro h
                    exact absurd (lt_of_lt_of_le hlvv (not_lt.mp hxv))
                      (by rw [h]; exact lt_irrefl lv)
                  rw [delete_rec_ge_cold_miss hxv hlnr hrnil (by simp [is_red])
                    (by simpa [left_node] using hrlred) hxm]
                  rw [move_red_right_rot]
                  simp only [setRight, right_node, toggleRoot_node, Colour.toggle_black]
                  have hRR : RightRed (RedBlackTree.node v .Black lr
                      (RedBlackTree.node rv .Red rl rr)) (j2 + 1) :=
                    ⟨v, lr, _, j2, rfl, hlr2, LLRB.red rv hrl hrr, rfl⟩
                  have hsub : List.Sublist (RedBlackTree.node v .Black lr
                      (RedBlackTree.node rv .Red rl rr)).toList
                      ((RedBlackTree.node v .Red
                        (RedBlackTree.node lv .Black
                          (RedBlackTree.node llv .Red p q) lr)
                        (RedBlackTree.node rv .Black rl rr)).toList) := by
                    simp only [toList_node]
                    exact List.Sublist.append_right
                      ((List.Sublist.cons lv (List.Sublist.refl _)).trans
                        (List.sublist_append_right _ _)) _
                  have hsT := hs.sublist hsub
                  have hszT : (RedBlackTree.node v .Black lr
                      (RedBlackTree.node rv .Red rl rr)).size ≤ k := by
                    simp only [size] at hsz ⊢
                    omega
                  obtain ⟨hol, hoB⟩ :=
                    (ih _ x (j2 + 1) hszT hsT).2.2.1 hRR
                      (by simpa [value_node] using hxv)
                  refine ⟨?_, fun hc => absurd hc (fix_up_ne_nil (by simp)),
                    fun _ => Or.inr (fix_up_red_BB (LLRB.black llv hp hq) hoB)⟩
                  have hnlr : x ∉ lr.toList := by
                    intro hc
                    apply hnl
                    rw [toList_node]
                    exact List.mem_append.mpr (Or.inr (List.mem_cons.mpr (Or.inr hc)))
                  rw [toList_node, toList_node] at hol
                  rw [erase_append_not_mem hnlr] at hol
                  conv_rhs => rw [toList_node, erase_append_not_mem hnl]
                  rw [toList_fix_up, toList_node, hol]
                  simp [toList_node, List.append_assoc]
                · -- move_red_right flips
                  have hcll : cll = .Black :=
                    LLRB_black_of_not_red hll (by simpa using hllred)
                  subst hcll
                  have hmrr := move_red_right_no_rot
                    (l := RedBlackTree.node lv .Black ll lr)
                    (r := RedBlackTree.node rv .Black rl rr)
                    (v := v) (c := .Red)
                    (by simpa [left_node] using (by simpa using hllred : ll.is_red = false))
                  have hsr' : List.Pairwise (fun a b => a < b)
                      (RedBlackTree.node rv .Red rl rr).toList := by
                    rw [toList_node]
                    rw [toList_node] at hsr
                    exact hsr
                  have hszr : (RedBlackTree.node rv .Red rl rr).size ≤ k := by
                    simp only [size] at hsz ⊢
                    omega
                  by_cases hxveq : x = v
                  · have hxm : x = (RedBlackTree.node v .Red
                        (RedBlackTree.node lv .Black ll lr)
                        (RedBlackTree.node rv .Black rl rr)).move_red_right.value := by
                      rw [hmrr]
                      simpa [value_node, toggleRoot_node] using hxveq
                    rw [delete_rec_ge_cold_hit hxv hlnr hrnil (by simp [is_red])
                      (by simpa [left_node] using hrlred) hxm]
                    rw [hmrr]
                    simp only [setValue, setRight, right_node, toggleRoot_node,
                      Colour.toggle_red, Colour.toggle_black]
                    obtain ⟨hol, honil, hocol⟩ :=
                      (delete_min_spec (RedBlackTree.node rv .Red rl rr).size
                        _ j2 le_rfl).1 (LLRB.red rv hrl hrr)
                    refine ⟨?_, fun hc => absurd hc (fix_up_ne_nil (by simp)), fun _ => ?_⟩
                    · subst hxveq
                      conv_rhs => rw [toList_node, erase_node_eq hvl]
                      have hhead : (RedBlackTree.node rv .Red rl rr).toList.head?
                          = some (RedBlackTree.node rv .Red rl rr).min_node.value :=
                        head_toList_min_node (by simp)
                      rw [toList_fix_up, toList_node, hol, cons_head_tail hhead]
                      simp [toList_node, List.append_assoc]
                    · rcases fix_up_black_left_red hll hlr2
                        (any_of_parts honil hocol) with hB' | hR'
                      · exact Or.inl hB'
                      · exact Or.inr hR'
                  · have hvx : v < x :=
                      lt_of_le_of_ne (not_lt.mp hxv) (fun h => hxveq h.symm)
                    have hxm : ¬ x = (RedBlackTree.node v .Red
                        (RedBlackTree.node lv .Black ll lr)
                        (RedBlackTree.node rv .Black rl rr)).move_red_right.value := by
                      rw [hmrr]
                      simpa [value_node, toggleRoot_node] using hxveq
                    rw [delete_rec_ge_cold_miss hxv hlnr hrnil (by simp [is_red])
                      (by simpa [left_node] using hrlred) hxm]
                    rw [hmrr]
                    simp only [setRight, right_node, toggleRoot_node,
                      Colour.toggle_red, Colour.toggle_black]
                    obtain ⟨hol, honil, hocol⟩ :=
                      (ih (RedBlackTree.node rv .Red rl rr) x j2 hszr hsr').1
                        (LLRB.red rv hrl hrr)
                    refine ⟨?_, fun hc => absurd hc (fix_up_ne_nil (by simp)), fun _ => ?_⟩
                    · conv_rhs => rw [toList_node, erase_node_gt hvx hvl]
                      rw [toList_fix_up, toList_node, hol]
                      simp [toList_node, List.append_assoc]
                    · rcases fix_up_black_left_red hll hlr2
                        (any_of_parts honil hocol) with hB' | hR'
                      · exact Or.inl hB'
                      · exact Or.inr hR'
      · -- D2: black root, red left child
        intro hB hlred
        cases hB with
        | black w hl hr =>
          rename_i cl m
          simp only [left_node] at hlred
          have hcl : cl = .Red := by
            cases cl with
            | Red => rfl
            | Black => rw [not_is_red_of_LLRB_black hl] at hlred; cases hlred
          subst hcl
          obtain ⟨lv, la, lb, rfl, hla, hlb⟩ := LLRB_red_shape hl
          by_cases hxv : x < v
          · rw [delete_rec_lt_no_mrl hxv (by simp) (Or.inl (by simp [is_red]))]
            have hszl : (RedBlackTree.node lv .Red la lb).size ≤ k := by
              simp only [size] at hsz ⊢
              omega
            obtain ⟨hol, honil, hocol⟩ :=
              (ih (RedBlackTree.node lv .Red la lb) x m hszl hsl).1
                (LLRB.red lv hla hlb)
            refine ⟨?_, fix_up_black_any_left (any_of_parts honil hocol) hr⟩
            conv_rhs => rw [toList_node, erase_node_lt hxv hvr]
            rw [toList_fix_up, toList_node, hol]
          · have hlvv : lv < v := hvl lv (by
              rw [toList_node]
              exact List.mem_append.mpr (Or.inr (List.mem_cons_self lv _)))
            have hxl : x ≠ lv := by
              intro h
              exact absurd (lt_of_lt_of_le hlvv (not_lt.mp hxv))
                (by rw [h]; exact lt_irrefl lv)
            rw [delete_rec_ge_red_miss hxv hxl]
            have hsub : List.Sublist (RedBlackTree.node v .Red lb r).toList
                ((RedBlackTree.node v .Black
                  (RedBlackTree.node lv .Red la lb) r).toList) := by
              simp only [toList_node]
              exact List.Sublist.append_right
                ((List.Sublist.cons lv (List.Sublist.refl _)).trans
                  (List.sublist_append_right _ _)) _
            have hsT := hs.sublist hsub
            have hszT : (RedBlackTree.node v .Red lb r).size ≤ k := by
              simp only [size] at hsz ⊢
              omega
            obtain ⟨hol, honil, hocol⟩ :=
              (ih (RedBlackTree.node v .Red lb r) x m hszT hsT).1
                (LLRB.red v hlb hr)
            refine ⟨?_, fix_up_black_any_right hla (any_of_parts honil hocol)⟩
            have hnl : x ∉ (RedBlackTree.node lv .Red la lb).toList :=
              not_mem_of_forall_lt
                (fun a ha => lt_of_lt_of_le (hvl a ha) (not_lt.mp hxv))
            have hnlb : x ∉ lb.toList := by
              intro hc
              apply hnl
              rw [toList_node]
              exact List.mem_append.mpr (Or.inr (List.mem_cons.mpr (Or.inr hc)))
            rw [toList_node] at hol
            rw [erase_append_not_mem hnlb] at hol
            conv_rhs => rw [toList_node, erase_append_not_mem hnl]
            rw [toList_fix_up, toList_node, hol]
            simp [toList_node, List.append_assoc]
      · -- D3: transient right-red state, key not on the left
        intro hRR hxval
        obtain ⟨w, L, R, m, heq, hL, hRr, hn⟩ := hRR
        rw [RedBlackTree.node.injEq] at heq
        obtain ⟨rfl, rfl, rfl, rfl⟩ := heq
        subst hn
        simp only [value_node] at hxval
        obtain ⟨rv, rl, rr, rfl, hrl, hrr⟩ := LLRB_red_shape hRr
        by_cases hxveq : x = v
        · rw [delete_rec_ge_hot_hit hxval (not_is_red_of_LLRB_black hL)
            (by simp) (Or.inl (by simp [is_red])) hxveq]
          obtain ⟨hol, honil, hocol⟩ :=
            (delete_min_spec (RedBlackTree.node rv .Red rl rr).size
              _ m le_rfl).1 (LLRB.red rv hrl hrr)
          refine ⟨?_, fix_up_black_any_right hL (any_of_parts honil hocol)⟩
          subst hxveq
          conv_rhs => rw [toList_node, erase_node_eq hvl]
          rw [toList_fix_up, toList_node, hol,
            cons_head_tail (head_toList_min_node (by simp))]
        · have hvx : v < x :=
            lt_of_le_of_ne (not_lt.mp hxval) (fun h => hxveq h.symm)
          rw [delete_rec_ge_hot_miss hxval (not_is_red_of_LLRB_black hL)
            (by simp) (Or.inl (by simp [is_red])) hxveq]
          have hszr : (RedBlackTree.node rv .Red rl rr).size ≤ k := by
            simp only [size] at hsz ⊢
            omega
          obtain ⟨hol, honil, hocol⟩ :=
            (ih (RedBlackTree.node rv .Red rl rr) x m hszr hsr).1
              (LLRB.red rv hrl hrr)
          refine ⟨?_, fix_up_black_any_right hL (any_of_parts honil hocol)⟩
          conv_rhs => rw [toList_node, erase_node_gt hvx hvl]
          rw [toList_fix_up, toList_node, hol]
      · -- D4: black root, left child not red
        intro hB hlnr
        cases hB with
        | black w hl hr =>
          rename_i cl m
          simp only [left_node] at hlnr
          have hcl : cl = .Black := LLRB_black_of_not_red hl hlnr
          subst hcl
          by_cases hxv : x < v
          · by_cases hlnil : l = RedBlackTree.nil
            · subst hlnil
              rw [delete_rec_lt_nil hxv]
              have hnm : x ∉ (RedBlackTree.node v .Black RedBlackTree.nil r).toList := by
                rw [toList_node]
                intro hm
                rcases List.mem_append.mp hm with h | h
                · simp [toList_nil] at h
                · rcases List.mem_cons.mp h with rfl | h
                  · exact absurd hxv (lt_irrefl x)
                  · exact absurd (lt_trans hxv (hvr x h)) (lt_irrefl x)
              refine ⟨by rw [List.erase_of_not_mem hnm],
                fun _ => Or.inl (LLRB.black v hl hr)⟩
            · obtain ⟨lv, ll, lr, cll, j, rfl, hll, hlr2, hjm⟩ :=
                LLRB_black_shape hl hlnil
              by_cases hllred : ll.is_red = true
              · rw [delete_rec_lt_no_mrl hxv (by simp)
                  (Or.inr (by simpa [left_node] using hllred))]
                have hszl : (RedBlackTree.node lv .Black ll lr).size ≤ k := by
                  simp only [size] at hsz ⊢
                  omega
                obtain ⟨hol, hoB⟩ :=
                  (ih (RedBlackTree.node lv .Black ll lr) x m hszl hsl).2.1 hl
                    (by simpa [left_node] using hllred)
                refine ⟨?_, fun _ => Or.inl
                  (fix_up_black_any_left (Or.inl hoB) hr)⟩
                conv_rhs => rw [toList_node, erase_node_lt hxv hvr]
                rw [toList_fix_up, toList_node, hol]
              · have hcll : cll = .Black :=
                  LLRB_black_of_not_red hll (by simpa using hllred)
                subst hcll
                have hrnn : r ≠ .nil := by
                  intro hc
                  subst hc
                  cases hr
                  have := LLRB_pos hll
                  omega
                obtain ⟨rv, rl, rr, clr, j2, rfl, hrl, hrr, hj2⟩ :=
                  LLRB_black_shape hr hrnn
                have hjj : j2 = j := by omega
                subst hjj
                subst hjm
                rw [delete_rec_lt_cold hxv (by simp) (by simp [is_red])
                  (by simpa [left_node] using (by simpa using hllred : ll.is_red = false))]
                by_cases hrlred : rl.is_red = true
                · have hclr : clr = .Red := by
                    cases clr with
                    | Red => rfl
                    | Black => rw [not_is_red_of_LLRB_black hrl] at hrlred; cases hrlred
                  subst hclr
                  obtain ⟨rlv, a, b, rfl, ha, hb⟩ := LLRB_red_shape hrl
                  rw [move_red_left_rot]
                  simp only [setLeft, left_node, toggleRoot_node, Colour.toggle_black]
                  have hsub : List.Sublist (RedBlackTree.node v .Black
                      (RedBlackTree.node lv .Red ll lr) a).toList
                      ((RedBlackTree.node v .Black
                        (RedBlackTree.node lv .Black ll lr)
                        (RedBlackTree.node rv .Black
                          (RedBlackTree.node rlv .Red a b) rr)).toList) := by
                    simp only [toList_node]
                    exact List.Sublist.append_left (List.Sublist.cons₂ v
                      ((List.sublist_append_left _ _).trans
                        (List.sublist_append_left _ _))) _
                  have hsT := hs.sublist hsub
                  have hszT : (RedBlackTree.node v .Black
                      (RedBlackTree.node lv .Red ll lr) a).size ≤ k := by
                    simp only [size] at hsz ⊢
                    omega
                  have hin : LLRB (RedBlackTree.node v .Black
                      (RedBlackTree.node lv .Red ll lr) a) .Black (j2 + 1) :=
                    LLRB.black v (LLRB.red lv hll hlr2) ha
                  obtain ⟨hol, hoB⟩ :=
                    (ih _ x (j2 + 1) hszT hsT).2.1 hin (by simp [left_node, is_red])
                  refine ⟨?_, fun _ => Or.inl
                    (fix_up_black_any_left (Or.inl hoB) (LLRB.black rv hb hrr))⟩
                  have hva : ∀ y ∈ a.toList, v < y := by
                    intro y hy
                    refine hvr y ?_
                    rw [toList_node, toList_node]
                    exact List.mem_append.mpr (Or.inl (List.mem_append.mpr (Or.inl hy)))
                  rw [toList_node] at hol
                  rw [erase_node_lt hxv hva] at hol
                  conv_rhs => rw [toList_node, erase_node_lt hxv hvr]
                  rw [toList_fix_up, toList_node, hol]
                  simp [toList_node, List.append_assoc]
                · have hclr : clr = .Black :=
                    LLRB_black_of_not_red hrl (by simpa using hrlred)
                  subst hclr
                  rw [move_red_left_no_rot (by simpa using hrlred)]
                  simp only [setLeft, left_node, toggleRoot_node,
                    Colour.toggle_red, Colour.toggle_black]
                  have hsl' : List.Pairwise (fun a b => a < b)
                      (RedBlackTree.node lv .Red ll lr).toList := by
                    rw [toList_node]
                    rw [toList_node] at hsl
                    exact hsl
                  have hszl : (RedBlackTree.node lv .Red ll lr).size ≤ k := by
                    simp only [size] at hsz ⊢
                    omega
                  obtain ⟨hol, honil, hocol⟩ :=
                    (ih (RedBlackTree.node lv .Red ll lr) x j2 hszl hsl').1
                      (LLRB.red lv hll hlr2)
                  refine ⟨?_, fun _ => ?_⟩
                  · conv_rhs => rw [toList_node, erase_node_lt hxv hvr]
                    rw [toList_fix_up, toList_node, hol]
                    simp [toList_node, List.append_assoc]
                  · rcases fix_up_red_rightred (any_of_parts honil hocol) hrl hrr
                      with hB' | hA
                    · exact Or.inl hB'
                    · refine Or.inr ?_
                      have hidx : j2 + 1 + 1 - 2 = j2 := by omega
                      rw [hidx]
                      exact hA
          · have hlnr' : l.is_red = false := hlnr
            by_cases hrnil : r = RedBlackTree.nil
            · subst hrnil
              cases hr
              have hlnil : l = .nil := LLRB_black_one hl
              subst hlnil
              by_cases hxveq : x = v
              · rw [delete_rec_ge_nil_hit hxv is_red_nil hxveq]
                subst hxveq
                refine ⟨?_, fun hc => absurd rfl hc⟩
                rw [toList_node, toList_nil]
                simp
              · rw [delete_rec_ge_nil_miss hxv is_red_nil hxveq]
                have hnm : x ∉ (RedBlackTree.node v .Black RedBlackTree.nil
                    RedBlackTree.nil).toList := by
                  rw [toList_node]
                  simp only [toList_nil, List.nil_append]
                  simpa using hxveq
                refine ⟨by rw [List.erase_of_not_mem hnm],
                  fun _ => Or.inl (LLRB.black v LLRB.nil LLRB.nil)⟩
            · obtain ⟨rv, rl, rr, clr, j2, rfl, hrl, hrr, hj2⟩ :=
                LLRB_black_shape hr hrnil
              by_cases hrlred : rl.is_red = true
              · have hhot : (RedBlackTree.node rv .Black rl rr).is_red = true ∨
                    (RedBlackTree.node rv .Black rl rr).left.is_red = true :=
                  Or.inr (by simpa [left_node] using hrlred)
                by_cases hxveq : x = v
                · rw [delete_rec_ge_hot_hit hxv hlnr' hrnil hhot hxveq]
                  obtain ⟨hol, hoB⟩ :=
                    (delete_min_spec (RedBlackTree.node rv .Black rl rr).size
                      _ m le_rfl).2 hr (by simpa [left_node] using hrlred)
                  refine ⟨?_, fun _ => Or.inl
                    (fix_up_black_any_right hl (Or.inl hoB))⟩
                  subst hxveq
                  conv_rhs => rw [toList_node, erase_node_eq hvl]
                  rw [toList_fix_up, toList_node, hol,
                    cons_head_tail (head_toList_min_node hrnil)]
                · have hvx : v < x :=
                    lt_of_le_of_ne (not_lt.mp hxv) (fun h => hxveq h.symm)
                  rw [delete_rec_ge_hot_miss hxv hlnr' hrnil hhot hxveq]
                  have hszr : (RedBlackTree.node rv .Black rl rr).size ≤ k := by
                    simp only [size] at hsz ⊢
                    omega
                  obtain ⟨hol, hoB⟩ :=
                    (ih (RedBlackTree.node rv .Black rl rr) x m hszr hsr).2.1 hr
                      (by simpa [left_node] using hrlred)
                  refine ⟨?_, fun _ => Or.inl
                    (fix_up_black_any_right hl (Or.inl hoB))⟩
                  conv_rhs => rw [toList_node, erase_node_gt hvx hvl]
                  rw [toList_fix_up, toList_node, hol]
              · have hrlnr : rl.is_red = false := by simpa using hrlred
                have hclr : clr = .Black := LLRB_black_of_not_red hrl hrlnr
                subst hclr
                have hlnn : l ≠ .nil := by
                  intro hc
                  subst hc
                  cases hl
                  have := LLRB_pos hrl
                  omega
                obtain ⟨lv, ll, lr, cll, j, rfl, hll, hlr2, hjm⟩ :=
                  LLRB_black_shape hl hlnn
                have hjj : j2 = j := by omega
                subst hjj
                subst hjm
                have hnl : x ∉ (RedBlackTree.node lv .Black ll lr).toList :=
                  not_mem_of_forall_lt
                    (fun a ha => lt_of_lt_of_le (hvl a ha) (not_lt.mp hxv))
                by_cases hllred : ll.is_red = true
                · have hcll : cll = .Red := by
                    cases cll with
                    | Red => rfl
                    | Black => rw [not_is_red_of_LLRB_black hll] at hllred; cases hllred
                  subst hcll
                  obtain ⟨llv, p, q, rfl, hp, hq⟩ := LLRB_red_shape hll
                  have hlvv : lv < v := hvl lv (by
                    rw [toList_node]
                    exact List.mem_append.mpr (Or.inr (List.mem_cons_self lv _)))
                  have hxm : ¬ x = (RedBlackTree.node v .Black
                      (RedBlackTree.node lv .Black
                        (RedBlackTree.node llv .Red p q) lr)
                      (RedBlackTree.node rv .Black rl rr)).move_red_right.value := by
                    rw [move_red_right_rot, value_node]
                    intro h
                    exact absurd (lt_of_lt_of_le hlvv (not_lt.mp hxv))
                      (by rw [h]; exact lt_irrefl lv)
                  rw [delete_rec_ge_cold_miss hxv hlnr' hrnil (by simp [is_red])
                    (by simpa [left_node] using hrlred) hxm]
                  rw [move_red_right_rot]
                  simp only [setRight, right_node, toggleRoot_node, Colour.toggle_black]
                  have hRR : RightRed (RedBlackTree.node v .Black lr
                      (RedBlackTree.node rv .Red rl rr)) (j2 + 1) :=
                    ⟨v, lr, _, j2, rfl, hlr2, LLRB.red rv hrl hrr, rfl⟩
                  have hsub : List.Sublist (RedBlackTree.node v .Black lr
                      (RedBlackTree.node rv .Red rl rr)).toList
                      ((RedBlackTree.node v .Black
                        (RedBlackTree.node lv .Black
                          (RedBlackTree.node llv .Red p q) lr)
                        (RedBlackTree.node rv .Black rl rr)).toList) := by
                    simp only [toList_node]
                    exact List.Sublist.append_right
                      ((List.Sublist.cons lv (List.Sublist.refl _)).trans
                        (List.sublist_append_right _ _)) _
                  have hsT := hs.sublist hsub
                  have hszT : (RedBlackTree.node v .Black lr
                      (RedBlackTree.node rv .Red rl rr)).size ≤ k := by
                    simp only [size] at hsz ⊢
                    omega
                  obtain ⟨hol, hoB⟩ :=
                    (ih _ x (j2 + 1) hszT hsT).2.2.1 hRR
                      (by simpa [value_node] using hxv)
                  refine ⟨?_, fun _ => Or.inl
                    (fix_up_black_any_right (LLRB.black llv hp hq) (Or.inl hoB))⟩
                  have hnlr : x ∉ lr.toList := by
                    intro hc
                    apply hnl
                    rw [toList_node]
                    exact List.mem_append.mpr (Or.inr (List.mem_cons.mpr (Or.inr hc)))
                  rw [toList_node, toList_node] at hol
                  rw [erase_append_not_mem hnlr] at hol
                  conv_rhs => rw [toList_node, erase_append_not_mem hnl]
                  rw [toList_fix_up, toList_node, hol]
                  simp [toList_node, List.append_assoc]
                · have hcll : cll = .Black :=
                    LLRB_black_of_not_red hll (by simpa using hllred)
                  subst hcll
                  have hmrr := move_red_right_no_rot
                    (l := RedBlackTree.node lv .Black ll lr)
                    (r := RedBlackTree.node rv .Black rl rr)
                    (v := v) (c := .Black)
                    (by simpa [left_node] using (by simpa using hllred : ll.is_red = false))
                  have hsr' : List.Pairwise (fun a b => a < b)
                      (RedBlackTree.node rv .Red rl rr).toList := by
                    rw [toList_node]
                    rw [toList_node] at hsr
                    exact hsr
                  have hszr : (RedBlackTree.node rv .Red rl rr).size ≤ k := by
                    simp only [size] at hsz ⊢
                    omega
                  by_cases hxveq : x = v
                  · have hxm : x = (RedBlackTree.node v .Black
                        (RedBlackTree.node lv .Black ll lr)
                        (RedBlackTree.node rv .Black rl rr)).move_red_right.value := by
                      rw [hmrr]
                      simpa [value_node, toggleRoot_node] using hxveq
                    rw [delete_rec_ge_cold_hit hxv hlnr' hrnil (by simp [is_red])
                      (by simpa [left_node] using hrlred) hxm]
                    rw [hmrr]
                    simp only [setValue, setRight, right_node, toggleRoot_node,
                      Colour.toggle_red, Colour.toggle_black]
                    obtain ⟨hol, honil, hocol⟩ :=
                      (delete_min_spec (RedBlackTree.node rv .Red rl rr).size
                        _ j2 le_rfl).1 (LLRB.red rv hrl hrr)
                    refine ⟨?_, fun _ => ?_⟩
                    · subst hxveq
                      conv_rhs => rw [toList_node, erase_node_eq hvl]
                      have hhead : (RedBlackTree.node rv .Red rl rr).toList.head?
                          = some (RedBlackTree.node rv .Red rl rr).min_node.value :=
                        head_toList_min_node (by simp)
                      rw [toList_fix_up, toList_node, hol, cons_head_tail hhead]
                      simp [toList_node, List.append_assoc]
                    · rcases fix_up_red_left_red hll hlr2
                        (any_of_parts honil hocol) with hB' | hA
                      · exact Or.inl hB'
                      · refine Or.inr ?_
                        have hidx : j2 + 1 + 1 - 2 = j2 := by omega
                        rw [hidx]
                        exact hA
                  · have hvx : v < x :=
                      lt_of_le_of_ne (not_lt.mp hxv) (fun h => hxveq h.symm)
                    have hxm : ¬ x = (RedBlackTree.node v .Black
                        (RedBlackTree.node lv .Black ll lr)
                        (RedBlackTree.node rv .Black rl rr)).move_red_right.value := by
                      rw [hmrr]
                      simpa [value_node, toggleRoot_node] using hxveq
                    rw [delete_rec_ge_cold_miss hxv hlnr' hrnil (by simp [is_red])
                      (by simpa [left_node] using hrlred) hxm]
                    rw [hmrr]
                    simp only [setRight, right_node, toggleRoot_node,
                      Colour.toggle_red, Colour.toggle_black]
                    obtain ⟨hol, honil, hocol⟩ :=
                      (ih (RedBlackTree.node rv .Red rl rr) x j2 hszr hsr').1
                        (LLRB.red rv hrl hrr)
                    refine ⟨?_, fun _ => ?_⟩
                    · conv_rhs => rw [toList_node, erase_node_gt hvx hvl]
                      rw [toList_fix_up, toList_node, hol]
                      simp [toList_node, List.append_assoc]
                    · rcases fix_up_red_left_red hll hlr2
                        (any_of_parts honil hocol) with hB' | hA
                      · exact Or.inl hB'
                      · refine Or.inr ?_
                        have hidx : j2 + 1 + 1 - 2 = j2 := by omega
                        rw [hidx]
                        exact hA

end RedBlackTree

namespace RedBlackTree

/-- A successful `delete` is exactly: the guard fails, `_delete_rec`
returns a nonempty tree, and the root is painted black. -/
theorem delete_ok_cases {t u : RedBlackTree} {x : Int}
    (h : t.delete x = .ok u) :
    t.delete_rec x ≠ .nil ∧ u = (t.delete_rec x).paint_black := by
  rw [delete] at h
  by_cases hg : (t.left = RedBlackTree.nil && t.right = RedBlackTree.nil &&
      t.value = x) = true
  · rw [if_pos hg] at h
    cases h
  · rw [if_neg hg] at h
    cases hd : t.delete_rec x with
    | nil =>
      rw [hd] at h
      cases h
    | node w cw lw rw' =>
      rw [hd] at h
      simp only [Except.ok.injEq] at h
      refine ⟨by simp [hd], ?_⟩
      exact h.symm

/-- One successful public `delete` on a valid sorted tree: validity is
kept and exactly the deleted value leaves the inorder sequence. -/
theorem delete_inv {t u : RedBlackTree} {x : Int} {n : Nat}
    (hB : LLRB t .Black n)
    (hs : List.Pairwise (fun a b => a < b) t.toList)
    (h : t.delete x = .ok u) :
    (∃ m, LLRB u .Black m) ∧ u.toList = t.toList.erase x := by
  obtain ⟨hnn, hu⟩ := delete_ok_cases h
  have hspec := delete_rec_spec t.size t x n le_rfl hs
  by_cases hlred : t.left.is_red = true
  · obtain ⟨hol, hoB⟩ := hspec.2.1 hB hlred
    subst hu
    exact ⟨paint_black_LLRB (Or.inl hoB), by rw [toList_paint_black, hol]⟩
  · obtain ⟨hol, hcol⟩ := hspec.2.2.2 hB (by simpa using hlred)
    subst hu
    refine ⟨?_, by rw [toList_paint_black, hol]⟩
    rcases hcol hnn with hB' | hA
    · exact paint_black_LLRB (Or.inl hB')
    · obtain ⟨w, a, b, heq, ha, hb⟩ := hA
      refine ⟨n - 2 + 1, ?_⟩
      rw [heq]
      exact LLRB.black w ha hb

/-- One successful public `insert` on a valid sorted tree: validity is
kept and exactly the new value joins the stored values. -/
theorem insert_inv {t u : RedBlackTree} {x : Int} {n : Nat}
    (hB : LLRB t .Black n)
    (hs : List.Pairwise (fun a b => a < b) t.toList)
    (h : t.insert x = .ok u) :
    (∃ m, LLRB u .Black m) ∧
    List.Pairwise (fun a b => a < b) u.toList ∧
    (∀ y, y ∈ u.toList ↔ y = x ∨ y ∈ t.toList) := by
  obtain ⟨w, hw, rfl⟩ := (insert_ok_iff t x u).mp h
  refine ⟨paint_black_LLRB ((insert_rec_LLRB t x .Black n w hB hw).1 rfl), ?_, ?_⟩
  · have ht := (is_bst_iff_pairwise t).mpr hs
    rw [is_bst] at ht
    have hwb : w.is_bst_go none none = true :=
      is_bst_go_insert_rec t x w none none ht (by simp [lowOK]) (by simp [highOK]) hw
    have hwp := (is_bst_iff_pairwise w).mp (by rw [is_bst]; exact hwb)
    rw [toList_paint_black]
    exact hwp
  · intro y
    rw [toList_paint_black]
    exact mem_insert_rec t x w hw y

/-- A successful run of public operations on a valid sorted tree keeps
validity and sortedness, and membership in the result follows the
reference history of inserts and deletes. -/
theorem runOps_spec : ∀ (ops : List Op) (t : RedBlackTree) (n : Nat)
    (u : RedBlackTree) (s : List Int),
    LLRB t .Black n → List.Pairwise (fun a b => a < b) t.toList →
    (∀ y, y ∈ t.toList ↔ y ∈ s) → runOps t ops = .ok u →
    (∃ m, LLRB u .Black m) ∧ List.Pairwise (fun a b => a < b) u.toList ∧
    (∀ y, y ∈ u.toList ↔ y ∈ histList s ops) := by
  intro ops
  induction ops with
  | nil =>
    intro t n u s hB hs hmem hrun
    simp only [runOps] at hrun
    cases hrun
    exact ⟨⟨n, hB⟩, hs, by simpa [histList] using hmem⟩
  | cons o os iho =>
    intro t n u s hB hs hmem hrun
    cases o with
    | ins x =>
      simp only [runOps, applyOp, bind, Except.bind] at hrun
      cases hins : t.insert x with
      | error e =>
        rw [hins] at hrun
        cases hrun
      | ok w =>
        rw [hins] at hrun
        obtain ⟨⟨nw, hwB⟩, hwp, hwm⟩ := insert_inv hB hs hins
        have hmem' : ∀ y, y ∈ w.toList ↔ y ∈ x :: s := by
          intro y
          rw [hwm y, List.mem_cons, hmem y]
        have hres := iho w nw u (x :: s) hwB hwp hmem' hrun
        exact ⟨hres.1, hres.2.1, by simpa [histList] using hres.2.2⟩
    | del x =>
      simp only [runOps, applyOp, bind, Except.bind] at hrun
      cases hdel : t.delete x with
      | error e =>
        rw [hdel] at hrun
        cases hrun
      | ok w =>
        rw [hdel] at hrun
        obtain ⟨⟨nw, hwB⟩, hwl⟩ := delete_inv hB hs hdel
        have hnd : t.toList.Nodup :=
          List.Pairwise.imp (fun h => ne_of_lt h) hs
        have hwp : List.Pairwise (fun a b => a < b) w.toList := by
          rw [hwl]
          exact hs.sublist (List.erase_sublist x t.toList)
        have hmem' : ∀ y, y ∈ w.toList ↔
            y ∈ s.filter (fun y => y ≠ x) := by
          intro y
          rw [hwl, List.Nodup.mem_erase_iff hnd, hmem y, List.mem_filter]
          simp [and_comm]
        have hres := iho w nw u (s.filter (fun y => y ≠ x)) hwB hwp hmem' hrun
        exact ⟨hres.1, hres.2.1, by simpa [histList] using hres.2.2⟩

/-- The source validators hold on every tree in a `LLRB` class with a
sorted traversal. -/
theorem is_rbt_of_LLRB {u : RedBlackTree} {m : Nat} (hB : LLRB u .Black m)
    (hp : List.Pairwise (fun a b => a < b) u.toList) :
    u.is_rbt = true ∧ u.left_leaning = true := by
  refine ⟨?_, LLRB_left_leaning hB⟩
  rw [is_rbt]
  rw [LLRB_colour hB, LLRB_no_red_red hB, LLRB_black_height hB,
    (is_bst_iff_pairwise u).mpr hp]
  rfl

/-- Conversely, the validators plus the left-leaning check pin down a
`LLRB` class with a sorted traversal. -/
theorem LLRB_of_is_rbt {t : RedBlackTree} (h1 : t.is_rbt = true)
    (h2 : t.left_leaning = true) :
    (∃ n, LLRB t .Black n) ∧ List.Pairwise (fun a b => a < b) t.toList := by
  rw [is_rbt] at h1
  simp only [Bool.and_eq_true, decide_eq_true_eq] at h1
  obtain ⟨⟨⟨hc, hbst⟩, hnrr⟩, hbh⟩ := h1
  obtain ⟨n, hn⟩ := Option.isSome_iff_exists.mp hbh
  have hL := LLRB_of_validators t n hnrr h2 hn
  rw [hc] at hL
  exact ⟨⟨n, hL⟩, (is_bst_iff_pairwise t).mp hbst⟩

/-- What `fromList` guarantees about its result: validity, sortedness,
and exactly the input values as members. -/
theorem fromList_props (xs : List Int) (t0 : RedBlackTree)
    (hnd : xs.Nodup) (hok : fromList xs = .ok (some t0)) :
    (∃ n, LLRB t0 .Black n) ∧
    List.Pairwise (fun a b => a < b) t0.toList ∧
    (∀ y, y ∈ t0.toList ↔ y ∈ xs) := by
  cases xs with
  | nil =>
    rw [fromList] at hok
    cases hok
  | cons x rest =>
    rw [fromList] at hok
    simp only [bind, Except.bind] at hok
    cases hfold : rest.foldlM insert (RedBlackTree.node x .Black .nil .nil) with
    | error e =>
      rw [hfold] at hok
      cases hok
    | ok w =>
      rw [hfold] at hok
      simp only [pure, Except.pure, Except.ok.injEq, Option.some.injEq] at hok
      subst hok
      have h0 : LLRB (RedBlackTree.node x .Black .nil .nil) .Black 2 :=
        LLRB.black x LLRB.nil LLRB.nil
      obtain ⟨m, hm⟩ := foldlM_insert_LLRB rest _ 2 w h0 hfold
      have h0b : (RedBlackTree.node x .Black .nil .nil).is_bst = true := by
        rw [is_bst_iff_pairwise]
        simp [toList]
      have hmem0 : ∀ y, y ∈ (RedBlackTree.node x .Black .nil .nil).toList
          ↔ y ∈ [x] := by
        intro y
        simp [toList]
      have hnodup : (([x] : List Int) ++ rest).Nodup := by simpa using hnd
      obtain ⟨u, hu1, hu2, hu3⟩ :=
        foldlM_insert_ok rest (RedBlackTree.node x .Black .nil .nil) [x]
          h0b hmem0 hnodup
      rw [hfold] at hu1
      simp only [Except.ok.injEq] at hu1
      subst hu1
      refine ⟨⟨m, hm⟩, (is_bst_iff_pairwise w).mp hu2, ?_⟩
      intro y
      rw [hu3 y]
      simp

end RedBlackTree

/-- C1 (counterexample): `is_rbt` alone is not preserved. The tree
`node 1 Black nil (node 2 Red nil nil)` passes every check `is_rbt`
makes (black root, BST, no red-red, consistent black height) because
`is_rbt` never looks at which side a red child hangs on; inserting `3`
completes normally but leaves a red node with a red child, so `is_rbt`
is false afterwards. -/
theorem C1_counterexample :
    (RedBlackTree.node 1 .Black .nil (.node 2 .Red .nil .nil)).is_rbt = true ∧
    RedBlackTree.runOps (RedBlackTree.node 1 .Black .nil (.node 2 .Red .nil .nil))
      [RedBlackTree.Op.ins 3]
      = .ok (RedBlackTree.node 3 .Black
          (.node 1 .Red .nil (.node 2 .Red .nil .nil)) .nil) ∧
    (RedBlackTree.node 3 .Black
      (.node 1 .Red .nil (.node 2 .Red .nil .nil)) .nil).is_rbt = false :=
  ⟨rfl, rfl, rfl⟩

/-- C1 (amended): on a tree that is valid *and left-leaning*, every
successful sequence of public inserts and deletes keeps `is_rbt` (and
keeps the tree left-leaning). -/
theorem C1_amended_rbt_preserved (ops : List RedBlackTree.Op)
    (t u : RedBlackTree)
    (h1 : t.is_rbt = true) (h2 : t.left_leaning = true)
    (hrun : RedBlackTree.runOps t ops = .ok u) :
    u.is_rbt = true ∧ u.left_leaning = true := by
  obtain ⟨⟨n, hB⟩, hp⟩ := RedBlackTree.LLRB_of_is_rbt h1 h2
  obtain ⟨⟨m, hmB⟩, hup, _⟩ :=
    RedBlackTree.runOps_spec ops t n u t.toList hB hp (fun y => Iff.rfl) hrun
  exact RedBlackTree.is_rbt_of_LLRB hmB hup

theorem C1_amended_rbt_preserved_witness :
    (RedBlackTree.node 1 .Black .nil .nil).is_rbt = true ∧
    (RedBlackTree.node 1 .Black .nil .nil).left_leaning = true ∧
    RedBlackTree.runOps (RedBlackTree.node 1 .Black .nil .nil)
      [RedBlackTree.Op.ins 2]
      = .ok (RedBlackTree.node 2 .Black (.node 1 .Red .nil .nil) .nil) ∧
    ((RedBlackTree.node 2 .Black (.node 1 .Red .nil .nil) .nil).is_rbt = true ∧
     (RedBlackTree.node 2 .Black (.node 1 .Red .nil .nil) .nil).left_leaning
       = true) :=
  ⟨rfl, rfl, rfl, C1_amended_rbt_preserved [RedBlackTree.Op.ins 2]
    (RedBlackTree.node 1 .Black .nil .nil)
    (RedBlackTree.node 2 .Black (.node 1 .Red .nil .nil) .nil) rfl rfl rfl⟩

/-- C2: on a tree built by `fromList` and mutated by any successful run
of public operations, `contains x` holds exactly when `x` is in the
reference history: inserted (at construction or later) and not
subsequently deleted. -/
theorem C2_contains_iff_inserted_not_deleted (xs : List Int)
    (ops : List RedBlackTree.Op) (t0 u : RedBlackTree) (x : Int)
    (hnd : xs.Nodup)
    (hfrom : RedBlackTree.fromList xs = .ok (some t0))
    (hrun : RedBlackTree.runOps t0 ops = .ok u) :
    (u.contains x = true ↔ x ∈ RedBlackTree.histList xs ops) := by
  obtain ⟨⟨n, hB⟩, hp, hmem⟩ := RedBlackTree.fromList_props xs t0 hnd hfrom
  obtain ⟨⟨m, hmB⟩, hup, humem⟩ :=
    RedBlackTree.runOps_spec ops t0 n u xs hB hp hmem hrun
  rw [RedBlackTree.contains_iff_mem u x hup]
  exact humem x

theorem C2_contains_iff_inserted_not_deleted_witness :
    ([1] : List Int).Nodup ∧
    RedBlackTree.fromList [1] = .ok (some (RedBlackTree.node 1 .Black .nil .nil)) ∧
    RedBlackTree.runOps (RedBlackTree.node 1 .Black .nil .nil)
      [RedBlackTree.Op.ins 2, RedBlackTree.Op.del 1]
      = .ok (RedBlackTree.node 2 .Black .nil .nil) ∧
    ((RedBlackTree.node 2 .Black .nil .nil).contains 2 = true ↔
      2 ∈ RedBlackTree.histList [1]
        [RedBlackTree.Op.ins 2, RedBlackTree.Op.del 1]) := by
  have hrun : RedBlackTree.runOps (RedBlackTree.node 1 .Black .nil .nil)
      [RedBlackTree.Op.ins 2, RedBlackTree.Op.del 1]
      = .ok (RedBlackTree.node 2 .Black .nil .nil) := by
    simp [RedBlackTree.runOps, RedBlackTree.applyOp, RedBlackTree.insert,
      RedBlackTree.insert_rec, RedBlackTree.delete, RedBlackTree.delete_rec,
      RedBlackTree.delete_min, RedBlackTree.value, RedBlackTree.left,
      RedBlackTree.right, RedBlackTree.is_red, RedBlackTree.move_red_left,
      RedBlackTree.move_red_right, RedBlackTree.flip_colours,
      RedBlackTree.toggleRoot, RedBlackTree.rotate_left,
      RedBlackTree.rotate_right, RedBlackTree.fix_up, RedBlackTree.setLeft,
      RedBlackTree.setRight, RedBlackTree.setValue, RedBlackTree.min_node,
      RedBlackTree.paint_black, Colour.toggle, bind, Except.bind, pure,
      Except.pure]
  exact ⟨by decide, rfl, hrun,
    C2_contains_iff_inserted_not_deleted [1]
      [RedBlackTree.Op.ins 2, RedBlackTree.Op.del 1]
      (RedBlackTree.node 1 .Black .nil .nil)
      (RedBlackTree.node 2 .Black .nil .nil) 2
      (by decide) rfl hrun⟩

/-- C3: `insert` raises the duplicate-key error exactly when the key is
already stored in the tree. -/
theorem C3_insert_duplicate_error (t : RedBlackTree) (x : Int) :
    t.insert x = .error .duplicateKey ↔ t.contains x = true := by
  rw [RedBlackTree.insert]
  cases h : t.insert_rec x with
  | error e =>
    have he := RedBlackTree.insert_rec_error_eq t x e h
    subst he
    simp only [iff_true_intro rfl, true_iff]
    exact (RedBlackTree.insert_rec_error_iff_contains t x).mp h
  | ok w =>
    constructor
    · intro hc
      cases hc
    · intro hc
      have := (RedBlackTree.insert_rec_error_iff_contains t x).mpr hc
      rw [h] at this
      cases this

/-- C4 (counterexample): deleting an absent value is not a no-op. On the
tree built from `[2, 0, 4, 1]` the value `3` is absent, yet `delete 3`
returns normally with a restructured tree different from the original. -/
theorem C4_counterexample :
    RedBlackTree.fromList [2, 0, 4, 1]
      = .ok (some (RedBlackTree.node 2 .Black
          (.node 1 .Black (.node 0 .Red .nil .nil) .nil)
          (.node 4 .Black .nil .nil))) ∧
    (RedBlackTree.node 2 .Black
        (.node 1 .Black (.node 0 .Red .nil .nil) .nil)
        (.node 4 .Black .nil .nil)).contains 3 = false ∧
    (RedBlackTree.node 2 .Black
        (.node 1 .Black (.node 0 .Red .nil .nil) .nil)
        (.node 4 .Black .nil .nil)).delete 3
      = .ok (RedBlackTree.node 1 .Black (.node 0 .Black .nil .nil)
          (.node 4 .Black (.node 2 .Red .nil .nil) .nil)) ∧
    RedBlackTree.node 1 .Black (.node 0 .Black .nil .nil)
        (.node 4 .Black (.node 2 .Red .nil .nil) .nil)
      ≠ RedBlackTree.node 2 .Black
          (.node 1 .Black (.node 0 .Red .nil .nil) .nil)
          (.node 4 .Black .nil .nil) := by
  refine ⟨rfl, rfl, ?_, by decide⟩
  simp [RedBlackTree.delete, RedBlackTree.delete_rec, RedBlackTree.delete_min,
    RedBlackTree.value, RedBlackTree.left, RedBlackTree.right,
    RedBlackTree.is_red, RedBlackTree.move_red_left, RedBlackTree.move_red_right,
    RedBlackTree.flip_colours, RedBlackTree.toggleRoot, RedBlackTree.rotate_left,
    RedBlackTree.rotate_right, RedBlackTree.fix_up, RedBlackTree.setLeft,
    RedBlackTree.setRight, RedBlackTree.setValue, RedBlackTree.min_node,
    RedBlackTree.paint_black, Colour.toggle]

/-- C4 (amended): deleting a value absent from a tree with more than one
node raises no error and returns a tree holding exactly the same values;
the shape and colours may change, so it is not a pure no-op. -/
theorem C4_delete_absent_same_values (t : RedBlackTree) (x : Int)
    (hsz : 1 < t.size) (hmem : x ∉ t.toList) :
    ∃ u, t.delete x = .ok u ∧ u.toList = t.toList := by
  have hnn : t ≠ .nil := by
    intro h
    subst h
    simp [RedBlackTree.size] at hsz
  exact RedBlackTree.delete_not_mem_ok t x hmem hnn

theorem C4_delete_absent_same_values_witness :
    1 < (RedBlackTree.node 2 .Black
        (.node 1 .Black (.node 0 .Red .nil .nil) .nil)
        (.node 4 .Black .nil .nil)).size ∧
    (3 : Int) ∉ (RedBlackTree.node 2 .Black
        (.node 1 .Black (.node 0 .Red .nil .nil) .nil)
        (.node 4 .Black .nil .nil)).toList ∧
    ∃ u, (RedBlackTree.node 2 .Black
        (.node 1 .Black (.node 0 .Red .nil .nil) .nil)
        (.node 4 .Black .nil .nil)).delete 3 = .ok u ∧
      u.toList = (RedBlackTree.node 2 .Black
        (.node 1 .Black (.node 0 .Red .nil .nil) .nil)
        (.node 4 .Black .nil .nil)).toList :=
  ⟨by decide, by decide,
    C4_delete_absent_same_values _ 3 (by decide) (by decide)⟩

/-- C5: deleting the value held by the only node raises the only-node
error, even though the value is present. -/
theorem C5_delete_only_node (v : Int) (c : Colour) :
    (RedBlackTree.node v c .nil .nil).delete v = .error .onlyNode ∧
    (RedBlackTree.node v c .nil .nil).contains v = true := by
  constructor
  · rw [RedBlackTree.delete]
    rw [if_pos (by simp [RedBlackTree.left, RedBlackTree.right,
      RedBlackTree.value])]
  · simp [RedBlackTree.contains]

/-- C6: building a tree from a pairwise-distinct list never raises: the
empty list yields `None`, and any non-empty list yields a tree (so `None`
comes back exactly when the input is empty) that satisfies the BST
property. -/
theorem C6_fromList_nodup_bst (xs : List Int) (hnd : xs.Nodup) :
    (xs = [] → RedBlackTree.fromList xs = .ok none) ∧
    (xs ≠ [] → ∃ t, RedBlackTree.fromList xs = .ok (some t) ∧
      t.is_bst = true) := by
  cases xs with
  | nil => exact ⟨fun _ => rfl, fun h => absurd rfl h⟩
  | cons x rest =>
    refine ⟨fun h => (by cases h), fun _ => ?_⟩
    have h0b : (RedBlackTree.node x .Black .nil .nil).is_bst = true := by
      rw [RedBlackTree.is_bst_iff_pairwise]
      simp [RedBlackTree.toList]
    have hmem0 : ∀ y, y ∈ (RedBlackTree.node x .Black .nil .nil).toList
        ↔ y ∈ [x] := by
      intro y
      simp [RedBlackTree.toList]
    have hnodup : (([x] : List Int) ++ rest).Nodup := by simpa using hnd
    obtain ⟨u, hu1, hu2, _⟩ :=
      RedBlackTree.foldlM_insert_ok rest (RedBlackTree.node x .Black .nil .nil)
        [x] h0b hmem0 hnodup
    refine ⟨u, ?_, hu2⟩
    rw [RedBlackTree.fromList]
    simp only [bind, Except.bind]
    rw [hu1]
    rfl

theorem C6_fromList_nodup_bst_witness :
    ([2, 1] : List Int).Nodup ∧ ([2, 1] : List Int) ≠ [] ∧
    (∃ t, RedBlackTree.fromList [2, 1] = .ok (some t) ∧ t.is_bst = true) :=
  ⟨by decide, by decide,
    (C6_fromList_nodup_bst [2, 1] (by decide)).2 (by decide)⟩

/-- C8: `is_rbt` does not check the left-leaning discipline the
operations maintain: a right-leaning tree passes `is_rbt` while failing
`left_leaning`. -/
theorem C8_is_rbt_ignores_left_leaning :
    (RedBlackTree.node 1 .Black .nil (.node 2 .Red .nil .nil)).is_rbt = true ∧
    (RedBlackTree.node 1 .Black .nil (.node 2 .Red .nil .nil)).left_leaning
      = false :=
  ⟨rfl, rfl⟩

/-- C9: deleting an absent value from a single-node tree returns normally
with the tree unchanged — the only-node guard compares the value first. -/
theorem C9_delete_absent_single (v x : Int) (hne : x ≠ v) :
    (RedBlackTree.node v .Black .nil .nil).delete x
      = .ok (RedBlackTree.node v .Black .nil .nil) := by
  rw [RedBlackTree.delete]
  rw [if_neg (by
    simp only [Bool.and_eq_true, decide_eq_true_eq, not_and]
    intro _ h
    exact hne h.symm)]
  by_cases hx : x < v
  · rw [RedBlackTree.delete_rec_lt_nil hx]
    rfl
  · rw [RedBlackTree.delete_rec_ge_nil_miss hx RedBlackTree.is_red_nil hne]
    rfl

theorem C9_delete_absent_single_witness :
    (1 : Int) ≠ 0 ∧
    (RedBlackTree.node 0 .Black .nil .nil).delete 1
      = .ok (RedBlackTree.node 0 .Black .nil .nil) :=
  ⟨by decide, C9_delete_absent_single 0 1 (by decide)⟩
